import Mathlib

/-!
Verification of the honesty package-index auditor.

This file shallowly embeds the parts of the `honesty` code base that the
checked claims are about: filename classification (`releases.py`), the simple
HTML index parsing pipeline and its file ordering, the archive checker result
codes (`checker.py`), the cache URL handling and fetch fast path (`cache.py`),
sdist requires conversion, version selection and the dependency walker
(`deps.py`).  Python strings are modelled as Lean `String`/`List Char`,
dictionaries as association lists, timestamps as `Nat`, and parsed PEP 440
versions as `Nat` where only their identity and total order matter.
-/

set_option maxRecDepth 10000

namespace Honesty

/-! ## Ordering framework

Python's `@dataclass(order=True)` compares instances as tuples of their
fields; `list.sort()` is an ascending stable sort using `<` on those tuples.
We model field-wise comparison with `Ordering`-valued comparators combined
lexicographically, and sorting with a stable insertion sort. -/

/-- The laws a comparator must satisfy for lexicographic composition:
reflexivity, antisymmetric swap, transitivity of `lt`, and that `eq` results
are substitutive. -/
structure CmpLaw {α : Type} (c : α → α → Ordering) : Prop where
  refl : ∀ a, c a a = .eq
  swap : ∀ a b, (c a b).swap = c b a
  lt_trans : ∀ a b d, c a b = .lt → c b d = .lt → c a d = .lt
  eq_transport : ∀ a b, c a b = .eq → ∀ d, c b d = c a d

/-- Lexicographic combination of two comparators (Python tuple comparison). -/
def cmpLex {α : Type} (c₁ c₂ : α → α → Ordering) (a b : α) : Ordering :=
  (c₁ a b).then (c₂ a b)

theorem ordering_then_eq_iff {a b : Ordering} :
    a.then b = .eq ↔ a = .eq ∧ b = .eq := by
  cases a <;> cases b <;> simp [Ordering.then]

theorem eq_then (x : Ordering) : Ordering.eq.then x = x := rfl

theorem lt_then (x : Ordering) : Ordering.lt.then x = .lt := rfl

theorem gt_then (x : Ordering) : Ordering.gt.then x = .gt := rfl

theorem ordering_swap_then (a b : Ordering) :
    (a.then b).swap = a.swap.then b.swap := by
  cases a <;> cases b <;> rfl

theorem CmpLaw.eq_transport_right {α : Type} {c : α → α → Ordering} (h : CmpLaw c)
    {a b : α} (hab : c a b = .eq) (d : α) : c d a = c d b := by
  calc c d a = (c a d).swap := (h.swap a d).symm
    _ = (c b d).swap := by rw [h.eq_transport a b hab d]
    _ = c d b := h.swap b d

theorem CmpLaw.lex {α : Type} {c₁ c₂ : α → α → Ordering}
    (h₁ : CmpLaw c₁) (h₂ : CmpLaw c₂) : CmpLaw (cmpLex c₁ c₂) := by
  constructor
  · intro a
    simp [cmpLex, h₁.refl, h₂.refl, Ordering.then]
  · intro a b
    simp only [cmpLex, ordering_swap_then, h₁.swap, h₂.swap]
  · intro a b d hab hbd
    simp only [cmpLex] at *
    cases e₁ : c₁ a b with
    | lt =>
      cases e₂ : c₁ b d with
      | lt => rw [h₁.lt_trans a b d e₁ e₂, lt_then]
      | eq => rw [← h₁.eq_transport_right e₂ a, e₁, lt_then]
      | gt => rw [e₂, gt_then] at hbd; exact absurd hbd (by decide)
    | eq =>
      rw [e₁, eq_then] at hab
      have hd1 : c₁ b d = c₁ a d := h₁.eq_transport a b e₁ d
      cases e₂ : c₁ b d with
      | lt => rw [← hd1, e₂, lt_then]
      | eq =>
        rw [e₂, eq_then] at hbd
        rw [← hd1, e₂, eq_then]
        exact h₂.lt_trans a b d hab hbd
      | gt => rw [e₂, gt_then] at hbd; exact absurd hbd (by decide)
    | gt => rw [e₁, gt_then] at hab; exact absurd hab (by decide)
  · intro a b hab d
    simp only [cmpLex, ordering_then_eq_iff] at hab
    simp only [cmpLex, h₁.eq_transport a b hab.1 d, h₂.eq_transport a b hab.2 d]

/-- Non-strict order induced by a comparator (`a <= b` in Python terms). -/
def cmpLe {α : Type} (c : α → α → Ordering) (a b : α) : Bool :=
  c a b != .gt

theorem CmpLaw.le_total {α : Type} {c : α → α → Ordering} (h : CmpLaw c) (a b : α) :
    cmpLe c a b || cmpLe c b a := by
  have hs := h.swap a b
  cases e : c a b <;> rw [e] at hs <;> simp only [cmpLe, e, ← hs] <;> decide

theorem CmpLaw.le_trans {α : Type} {c : α → α → Ordering} (h : CmpLaw c) {a b d : α}
    (hab : cmpLe c a b) (hbd : cmpLe c b d) : cmpLe c a d := by
  unfold cmpLe at *
  cases e₁ : c a b with
  | lt =>
    cases e₂ : c b d with
    | lt => rw [h.lt_trans a b d e₁ e₂]; decide
    | eq => rw [← h.eq_transport_right e₂ a, e₁]; decide
    | gt => rw [e₂] at hbd; exact absurd hbd (by decide)
  | eq => rw [← h.eq_transport a b e₁ d]; exact hbd
  | gt => rw [e₁] at hab; exact absurd hab (by decide)

/-! Basic comparators. -/

def cmpNat (a b : Nat) : Ordering :=
  if a < b then .lt else if b < a then .gt else .eq

theorem cmpNat_lt_iff {a b : Nat} : cmpNat a b = .lt ↔ a < b := by
  unfold cmpNat
  split
  next h => simp [h]
  next h =>
    split
    next h' => simp only [iff_false_intro h]; exact ⟨fun hh => absurd hh (by decide), False.elim⟩
    next h' => simp only [iff_false_intro h]; exact ⟨fun hh => absurd hh (by decide), False.elim⟩

theorem cmpNat_gt_iff {a b : Nat} : cmpNat a b = .gt ↔ b < a := by
  unfold cmpNat
  split
  next h =>
    have h' : ¬ b < a := by omega
    simp only [iff_false_intro h']
    exact ⟨fun hh => absurd hh (by decide), False.elim⟩
  next h =>
    split
    next h' => simp [h']
    next h' => simp only [iff_false_intro h']; exact ⟨fun hh => absurd hh (by decide), False.elim⟩

theorem cmpNat_eq_iff {a b : Nat} : cmpNat a b = .eq ↔ a = b := by
  unfold cmpNat
  split
  next h =>
    have h' : a ≠ b := by omega
    simp only [iff_false_intro h']
    exact ⟨fun hh => absurd hh (by decide), False.elim⟩
  next h =>
    split
    next h' =>
      have h'' : a ≠ b := by omega
      simp only [iff_false_intro h'']
      exact ⟨fun hh => absurd hh (by decide), False.elim⟩
    next h' =>
      have : a = b := by omega
      simp [this]

theorem cmpNat_law : CmpLaw cmpNat := by
  constructor
  · intro a; exact cmpNat_eq_iff.mpr rfl
  · intro a b
    rcases Nat.lt_trichotomy a b with h | h | h
    · rw [cmpNat_lt_iff.mpr h, cmpNat_gt_iff.mpr h]; rfl
    · rw [cmpNat_eq_iff.mpr h, cmpNat_eq_iff.mpr h.symm]; rfl
    · rw [cmpNat_gt_iff.mpr h, cmpNat_lt_iff.mpr h]; rfl
  · intro a b d h₁ h₂
    rw [cmpNat_lt_iff] at *
    omega
  · intro a b h d
    rw [cmpNat_eq_iff.mp h]

def cmpBool (a b : Bool) : Ordering := cmpNat a.toNat b.toNat

theorem cmpBool_law : CmpLaw cmpBool := by
  constructor
  · intro a; exact cmpNat_law.refl _
  · intro a b; exact cmpNat_law.swap _ _
  · intro a b d; exact cmpNat_law.lt_trans _ _ _
  · intro a b h d
    have hab : a.toNat = b.toNat := cmpNat_eq_iff.mp h
    have : a = b := by cases a <;> cases b <;> simp_all
    rw [this]

def cmpChar (a b : Char) : Ordering := cmpNat a.toNat b.toNat

theorem cmpChar_law : CmpLaw cmpChar := by
  constructor
  · intro a; exact cmpNat_law.refl _
  · intro a b; exact cmpNat_law.swap _ _
  · intro a b d; exact cmpNat_law.lt_trans _ _ _
  · intro a b h d
    have hab : a.toNat = b.toNat := cmpNat_eq_iff.mp h
    unfold cmpChar
    rw [hab]

def cmpList {α : Type} (c : α → α → Ordering) : List α → List α → Ordering
  | [], [] => .eq
  | [], _ :: _ => .lt
  | _ :: _, [] => .gt
  | a :: as, b :: bs => (c a b).then (cmpList c as bs)

theorem cmpList_law {α : Type} {c : α → α → Ordering} (h : CmpLaw c) :
    CmpLaw (cmpList c) := by
  constructor
  · intro a
    induction a with
    | nil => rfl
    | cons x xs ih => simp [cmpList, h.refl, Ordering.then, ih]
  · intro a
    induction a with
    | nil => intro b; cases b <;> rfl
    | cons x xs ih =>
      intro b
      cases b with
      | nil => rfl
      | cons y ys => simp [cmpList, ordering_swap_then, h.swap, ih]
  · intro a
    induction a with
    | nil =>
      intro b d h₁ h₂
      cases b <;> cases d <;> simp_all [cmpList]
    | cons x xs ih =>
      intro b d h₁ h₂
      cases b with
      | nil => simp [cmpList] at h₁
      | cons y ys =>
        cases d with
        | nil => simp [cmpList] at h₂
        | cons z zs =>
          simp only [cmpList] at h₁ h₂ ⊢
          cases e₁ : c x y <;> rw [e₁] at h₁ <;> simp [Ordering.then] at h₁
          · cases e₂ : c y z <;> rw [e₂] at h₂ <;> simp [Ordering.then] at h₂
            · simp [h.lt_trans x y z e₁ e₂, Ordering.then]
            · rw [← h.eq_transport_right e₂ x, e₁]; simp [Ordering.then]
          · cases e₂ : c y z <;> rw [e₂] at h₂ <;> simp [Ordering.then] at h₂
            · rw [← h.eq_transport x y e₁ z, e₂]; simp [Ordering.then]
            · rw [← h.eq_transport x y e₁ z, e₂]
              simp only [Ordering.then]
              exact ih ys zs h₁ h₂
  · intro a
    induction a with
    | nil =>
      intro b hb d
      cases b <;> simp_all [cmpList]
    | cons x xs ih =>
      intro b hb d
      cases b with
      | nil => simp [cmpList] at hb
      | cons y ys =>
        simp only [cmpList, ordering_then_eq_iff] at hb
        cases d with
        | nil => rfl
        | cons z zs =>
          simp only [cmpList, h.eq_transport x y hb.1 z, ih ys hb.2 zs]

def cmpString (a b : String) : Ordering := cmpList cmpChar a.data b.data

theorem cmpString_law : CmpLaw cmpString := by
  have h := cmpList_law cmpChar_law
  constructor
  · intro a; exact h.refl _
  · intro a b; exact h.swap _ _
  · intro a b d; exact h.lt_trans _ _ _
  · intro a b hab d
    unfold cmpString at *
    rw [← h.eq_transport _ _ hab]

/-- Comparator on `Option`, placing `none` first.  Python would raise
`TypeError` comparing `None` with a value; dataclass tuple comparison only
reaches an `Option` field when all earlier fields tie, and no claim exercises
the raising case, so we totalise with `none` least. -/
def cmpOption {α : Type} (c : α → α → Ordering) : Option α → Option α → Ordering
  | none, none => .eq
  | none, some _ => .lt
  | some _, none => .gt
  | some a, some b => c a b

theorem cmpOption_law {α : Type} {c : α → α → Ordering} (h : CmpLaw c) :
    CmpLaw (cmpOption c) := by
  constructor
  · intro a; cases a <;> simp [cmpOption, h.refl]
  · intro a b
    cases a <;> cases b <;> first | rfl | exact h.swap _ _
  · intro a b d h₁ h₂
    cases a <;> cases b <;> cases d <;> simp_all [cmpOption]
    exact h.lt_trans _ _ _ h₁ h₂
  · intro a b hab d
    cases a <;> cases b <;> simp_all [cmpOption]
    cases d <;> simp [cmpOption, ← h.eq_transport _ _ hab]

/-! ## Stable insertion sort (models Python's ascending stable `list.sort`). -/

def orderedInsert {α : Type} (le : α → α → Bool) (a : α) : List α → List α
  | [] => [a]
  | b :: l => if le a b then a :: b :: l else b :: orderedInsert le a l

def insertionSort {α : Type} (le : α → α → Bool) : List α → List α
  | [] => []
  | b :: l => orderedInsert le b (insertionSort le l)

theorem mem_orderedInsert {α : Type} {le : α → α → Bool} {a x : α} {l : List α} :
    x ∈ orderedInsert le a l ↔ x = a ∨ x ∈ l := by
  induction l with
  | nil => simp [orderedInsert]
  | cons b l ih =>
    simp only [orderedInsert]
    by_cases h : le a b = true <;> simp [h, ih] <;> tauto

theorem mem_insertionSort {α : Type} {le : α → α → Bool} {x : α} {l : List α} :
    x ∈ insertionSort le l ↔ x ∈ l := by
  induction l with
  | nil => simp [insertionSort]
  | cons b l ih => simp [insertionSort, mem_orderedInsert, ih]

theorem sorted_orderedInsert {α : Type} {le : α → α → Bool}
    (htot : ∀ a b, le a b || le b a) (htr : ∀ a b d, le a b → le b d → le a d)
    {a : α} {l : List α} (hl : l.Pairwise (fun x y => le x y = true)) :
    (orderedInsert le a l).Pairwise (fun x y => le x y = true) := by
  induction l with
  | nil => simp [orderedInsert]
  | cons b l ih =>
    rcases List.pairwise_cons.mp hl with ⟨hb, hl'⟩
    simp only [orderedInsert]
    by_cases h : le a b = true
    · rw [if_pos h]
      refine List.pairwise_cons.mpr ⟨?_, hl⟩
      intro y hy
      rcases List.mem_cons.mp hy with rfl | hy'
      · exact h
      · exact htr a b y h (hb y hy')
    · rw [if_neg h]
      have hba : le b a = true := by
        have := htot a b
        simp only [Bool.or_eq_true] at this
        tauto
      refine List.pairwise_cons.mpr ⟨?_, ih hl'⟩
      intro y hy
      rcases mem_orderedInsert.mp hy with rfl | hy'
      · exact hba
      · exact hb y hy'

theorem sorted_insertionSort {α : Type} {le : α → α → Bool}
    (htot : ∀ a b, le a b || le b a) (htr : ∀ a b d, le a b → le b d → le a d)
    (l : List α) :
    (insertionSort le l).Pairwise (fun x y => le x y = true) := by
  induction l with
  | nil => simp [insertionSort]
  | cons b l ih => exact sorted_orderedInsert htot htr ih

/-- In a list sorted by a total `le`, every member is `le` the last element. -/
theorem le_getLast_of_sorted {α : Type} {le : α → α → Bool}
    (htot : ∀ a b, le a b || le b a) {l : List α}
    (hs : l.Pairwise (fun x y => le x y = true)) {x : α} (hx : x ∈ l)
    (d : α) : le x (l.getLastD d) := by
  induction l with
  | nil => simp at hx
  | cons b l ih =>
    rcases List.pairwise_cons.mp hs with ⟨hb, hl'⟩
    cases l with
    | nil =>
      simp at hx
      subst hx
      have := htot x x
      simpa using this
    | cons c l' =>
      rcases List.mem_cons.mp hx with rfl | hx'
      · have hmem : (c :: l').getLastD d ∈ c :: l' := by
          rw [List.getLastD_eq_getLast?, List.getLast?_eq_getLast _ (by simp)]
          · exact List.getLast_mem _
        simpa using hb _ hmem
      · simpa using ih hl' hx'

def lookupA {α : Type} [DecidableEq α] {β : Type} (l : List (α × β)) (k : α) :
    Option β :=
  match l.find? (fun p => p.1 = k) with
  | some p => some p.2
  | none => none

/-- Update an association list at a key (insert-or-replace, preserving the
original position of an existing key, like a Python dict). -/
def setA {α : Type} [DecidableEq α] {β : Type} (l : List (α × β)) (k : α) (v : β) :
    List (α × β) :=
  match l with
  | [] => [(k, v)]
  | (k', v') :: rest => if k' = k then (k, v) :: rest else (k', v') :: setA rest k v

/-! ## releases.py: filename classification

`guess_file_type` / `guess_version` dispatch on the basename's extension and
on the `NUMERIC_VERSION` regex
`^(?P<package>.*?)-(?P<version>[0-9][^-]*?)`
`(?P<suffix>(?P<platform>\.macosx|\.linux|\.cygwin|\.win(?:xp)?(?:32)?)?(?:|-.*))?$`.
We implement that regex's backtracking semantics directly: the lazy `package`
group tries the shortest prefix first, the lazy `version` group the shortest
digit-led dash-free run first, and the suffix/platform alternatives are tried
in the regex's left-to-right order. -/

/-- Result groups of a `NUMERIC_VERSION` match. -/
structure NVMatch where
  package : List Char
  version : List Char
  platform : Option (List Char)
  suffix : List Char
  deriving DecidableEq, Repr

/-- The platform alternatives of the regex, in backtracking order
(`\.macosx|\.linux|\.cygwin|\.win(?:xp)?(?:32)?`, with the optional `xp` and
`32` tried greedily). -/
def platformAlts : List (List Char) :=
  [".macosx".data, ".linux".data, ".cygwin".data,
   ".winxp32".data, ".winxp".data, ".win32".data, ".win".data]

/-- Does `t` match `(?:|-.*)$`: empty, or a dash followed by characters that
`.` can match (no newline)? -/
def dashRestOk (t : List Char) : Bool :=
  match t with
  | [] => true
  | c :: rest => c = '-' && !rest.contains '\n'

/-- Match `r` against `(?P<suffix>(?P<platform>…)?(?:|-.*))?$`, returning the
platform group on success. -/
def suffixMatch (r : List Char) : Option (Option (List Char)) :=
  match platformAlts.find? (fun p => p.isPrefixOf r && dashRestOk (r.drop p.length)) with
  | some p => some (some p)
  | none => if dashRestOk r then some none else none

/-- Lazy scan of the `version` group (`[0-9][^-]*?`): `acc` holds the version
characters matched so far; extend one character at a time until the remaining
input matches the suffix part of the regex. -/
def scanVersion (acc : List Char) : List Char → Option (List Char × Option (List Char) × List Char)
  | [] =>
    match suffixMatch [] with
    | some plat => some (acc, plat, [])
    | none => none
  | c :: r' =>
    match suffixMatch (c :: r') with
    | some plat => some (acc, plat, c :: r')
    | none => if c = '-' then none else scanVersion (acc ++ [c]) r'

/-- Lazy scan of the `package` group (`.*?` followed by a literal dash): try
each dash position from the left; at each, the next character must be a digit
starting the version group. A newline can never be part of `.*?`. -/
def scanPackage (pkg : List Char) : List Char → Option NVMatch
  | [] => none
  | c :: r =>
    if c = '-' then
      match r with
      | [] => none
      | d :: r' =>
        if d.isDigit then
          match scanVersion [d] r' with
          | some (ver, plat, suf) =>
            some { package := pkg, version := ver, platform := plat, suffix := suf }
          | none => scanPackage (pkg ++ [c]) r
        else scanPackage (pkg ++ [c]) r
    else if c = '\n' then none
    else scanPackage (pkg ++ [c]) r

/-- `NUMERIC_VERSION.match(s)` of releases.py. -/
def numericVersionMatch (s : String) : Option NVMatch :=
  scanPackage [] s.data

/-- The `FileType` IntEnum of releases.py. -/
inductive FileType
  | UNKNOWN
  | SDIST
  | BDIST_DMG
  | BDIST_DUMB
  | BDIST_EGG
  | BDIST_MSI
  | BDIST_RPM
  | BDIST_WHEEL
  | BDIST_WININST
  deriving DecidableEq, Repr

/-- The integer value of each `FileType` member. -/
def FileType.toNat : FileType → Nat
  | .UNKNOWN => 0
  | .SDIST => 1
  | .BDIST_DMG => 2
  | .BDIST_DUMB => 3
  | .BDIST_EGG => 4
  | .BDIST_MSI => 5
  | .BDIST_RPM => 6
  | .BDIST_WHEEL => 7
  | .BDIST_WININST => 8

/-- Errors raised by the filename helpers (`UnexpectedFilename`, and Python's
`KeyError` for a missing/empty href). -/
inductive RelError
  | UnexpectedFilename (s : String)
  | KeyError (s : String)
  deriving DecidableEq, Repr

def endsWithA (s suf : String) : Bool := suf.data.isSuffixOf s.data

def dropSuffixA (s : String) (n : Nat) : String :=
  ⟨s.data.take (s.data.length - n)⟩

def SDIST_EXTENSIONS : List String := [".tgz", ".tar.gz", ".zip", ".tar.bz2"]

/-- `remove_suffix` of releases.py: strip each suffix in the fixed order,
sequentially. -/
def remove_suffix (basename : String) : String :=
  [".egg", ".whl", ".zip", ".gz", ".bz2", ".tar",
   ".exe", ".msi", ".rpm", ".dmg", ".tgz"].foldl
    (fun b s => if endsWithA b s then dropSuffixA b s.length else b) basename

/-- `guess_file_type` of releases.py. -/
def guess_file_type (filename : String) : Except RelError FileType :=
  if endsWithA filename ".egg" then .ok .BDIST_EGG
  else if endsWithA filename ".whl" then .ok .BDIST_WHEEL
  else if endsWithA filename ".exe" then .ok .BDIST_WININST
  else if endsWithA filename ".msi" then .ok .BDIST_MSI
  else if endsWithA filename ".rpm" then .ok .BDIST_RPM
  else if endsWithA filename ".dmg" then .ok .BDIST_DMG
  else if SDIST_EXTENSIONS.any (endsWithA filename) then
    let fn := remove_suffix filename
    match numericVersionMatch fn with
    | none => .error (.UnexpectedFilename fn)
    | some m =>
      if m.platform.isSome then .ok .BDIST_DUMB
      else if "-macosx".data.isPrefixOf m.suffix then .ok .BDIST_DUMB
      else .ok .SDIST
  else .ok .UNKNOWN

/-- `guess_version` of releases.py: returns (package name, version). -/
def guess_version (basename : String) : Except RelError (String × String) :=
  let b := remove_suffix basename
  match numericVersionMatch b with
  | none => .error (.UnexpectedFilename b)
  | some m => .ok (⟨m.package⟩, ⟨m.version⟩)

/-! ## releases.py: FileEntry and the simple-HTML parse pipeline -/

/-- The `FileEntry` dataclass.  Timestamps are modelled as `Nat`
(microseconds-since-epoch granularity is irrelevant to the claims). -/
structure FileEntry where
  url : String
  basename : String
  checksum : String
  file_type : FileType
  version : String
  requires_python : Option String := none
  size : Option Nat := none
  python_version : Option String := none
  upload_time : Option Nat := none
  deriving DecidableEq, Repr

/-- `@dataclass(order=True)` compares instances as the tuple of their fields
in declaration order: url, basename, checksum, file_type, version,
requires_python, size, python_version, upload_time. -/
def FileEntry.cmp : FileEntry → FileEntry → Ordering :=
  cmpLex (fun a b => cmpString a.url b.url) <|
  cmpLex (fun a b => cmpString a.basename b.basename) <|
  cmpLex (fun a b => cmpString a.checksum b.checksum) <|
  cmpLex (fun a b => cmpNat a.file_type.toNat b.file_type.toNat) <|
  cmpLex (fun a b => cmpString a.version b.version) <|
  cmpLex (fun a b => cmpOption cmpString a.requires_python b.requires_python) <|
  cmpLex (fun a b => cmpOption cmpNat a.size b.size) <|
  cmpLex (fun a b => cmpOption cmpString a.python_version b.python_version)
    (fun a b => cmpOption cmpNat a.upload_time b.upload_time)

theorem cmpLaw_comap {α β : Type} {c : β → β → Ordering} (h : CmpLaw c)
    (f : α → β) : CmpLaw (fun a b => c (f a) (f b)) := by
  constructor
  · intro a; exact h.refl _
  · intro a b; exact h.swap _ _
  · intro a b d; exact h.lt_trans _ _ _
  · intro a b hab d; exact h.eq_transport _ _ hab _

theorem FileEntry.cmp_law : CmpLaw FileEntry.cmp :=
  (cmpLaw_comap cmpString_law _).lex <|
  (cmpLaw_comap cmpString_law _).lex <|
  (cmpLaw_comap cmpString_law _).lex <|
  (cmpLaw_comap cmpNat_law _).lex <|
  (cmpLaw_comap cmpString_law _).lex <|
  (cmpLaw_comap (cmpOption_law cmpString_law) _).lex <|
  (cmpLaw_comap (cmpOption_law cmpNat_law) _).lex <|
  (cmpLaw_comap (cmpOption_law cmpString_law) _).lex
  (cmpLaw_comap (cmpOption_law cmpNat_law) _)

/-- The `<=` used (elementwise) by `rel.files.sort()`. -/
def fileEntryLe (a b : FileEntry) : Bool := cmpLe FileEntry.cmp a b

/-- `CHECKSUM_RE` is
`\A(?P<url>[^"#]+\/(?P<basename>[^#]+))#(?P<checksum>[^="]+=[a-f0-9]+)\Z`.
`findUrlSplit` finds the greedy split of the part before the first `#`:
the last slash whose prefix is nonempty and free of double quotes, with a
nonempty remainder (the basename). -/
def findUrlSplit (seen : List Char) (rest : List Char)
    (best : Option (List Char)) : Option (List Char) :=
  match rest with
  | [] => best
  | c :: r =>
    if c = '"' then best
    else
      let best' := if c = '/' && !seen.isEmpty && !r.isEmpty then some r else best
      findUrlSplit (seen ++ [c]) r best'

def isHexLower (c : Char) : Bool :=
  ('a' ≤ c && c ≤ 'f') || ('0' ≤ c && c ≤ '9')

/-- Match the `(?P<checksum>[^="]+=[a-f0-9]+)\Z` part. -/
def checksumPartOk (post : List Char) : Bool :=
  let x := post.takeWhile (fun c => c ≠ '=' && c ≠ '"')
  !x.isEmpty &&
    (match post.drop x.length with
     | '=' :: y => !y.isEmpty && y.all isHexLower
     | _ => false)

/-- `CHECKSUM_RE.match(href)`, returning the (url, basename, checksum)
groups. -/
def checksumMatch (href : String) : Option (String × String × String) :=
  let pre := href.data.takeWhile (· ≠ '#')
  match href.data.drop pre.length with
  | '#' :: post =>
    if checksumPartOk post then
      match findUrlSplit [] pre none with
      | some basename => some (⟨pre⟩, ⟨basename⟩, ⟨post⟩)
      | none => none
    else none
  | _ => none

/-- `dict(attrs)` lookup: the last binding of a key wins. -/
def dictGet (attrs : List (String × Option String)) (k : String) :
    Option (Option String) :=
  (attrs.reverse.find? (fun p => p.1 = k)).map (·.2)

/-- `FileEntry.from_attrs` of releases.py. -/
def FileEntry.from_attrs (attrs : List (String × Option String)) :
    Except RelError FileEntry := do
  let href ← match dictGet attrs "href" with
    | none => .error (.KeyError "href")
    | some none => .error (.KeyError "Empty href")
    | some (some h) => pure h
  match checksumMatch href with
  | none => .error (.UnexpectedFilename href)
  | some (url, basename, checksum) => do
    let ft ← guess_file_type basename
    let gv ← guess_version basename
    pure { url := url, basename := basename, checksum := checksum,
           file_type := ft, version := gv.2,
           requires_python := (dictGet attrs "data-requires-python").bind id }

/-- `LinkGatherer`: run `from_attrs` on each `<a>` tag's attributes (the
stdlib HTML tokeniser, which decodes entities in attribute values, is
modelled as the list of attribute lists it hands to `handle_starttag`).
An `UnexpectedFilename` drops the entry unless strict; other errors
propagate. -/
def gatherEntries (tags : List (List (String × Option String))) (strict : Bool) :
    Except RelError (List FileEntry) :=
  tags.foldlM (fun acc attrs =>
    match FileEntry.from_attrs attrs with
    | .ok fe => .ok (acc ++ [fe])
    | .error (.UnexpectedFilename s) =>
      if strict then .error (.UnexpectedFilename s) else .ok acc
    | .error e => .error e) []

/-- `PackageRelease` of releases.py.  `parse_version` (PEP 440 parsing via
`packaging`) is modelled as the identity on version strings, ordered
lexicographically; for the version numerals exercised by the claims this
coincides with PEP 440 order. -/
structure PackageRelease where
  version : String
  parsed_version : String
  files : List FileEntry
  requires : Option (List String) := none
  deriving DecidableEq, Repr

def parse_version (v : String) : String := v

structure Package where
  name : String
  releases : List (String × PackageRelease)
  requires : Option (List String) := none
  deriving DecidableEq, Repr

/-- The HTML branch of `async_parse_index`: gather entries, group them into
releases by parsed version in input order, sort the releases mapping by
version, and sort each release's file list (`rel.files.sort()`, which uses
the `FileEntry` dataclass order). -/
def async_parse_index_html (pkg : String)
    (tags : List (List (String × Option String))) (strict : Bool) :
    Except RelError Package := do
  let entries ← gatherEntries tags strict
  let releases := entries.foldl (fun (rels : List (String × PackageRelease)) fe =>
    let pv := parse_version fe.version
    match lookupA rels pv with
    | some rel => setA rels pv { rel with files := rel.files ++ [fe] }
    | none => rels ++ [(pv, { version := fe.version, parsed_version := pv,
                              files := [fe] })]) []
  let sorted := insertionSort (fun a b => cmpLe cmpString a.1 b.1) releases
  pure { name := pkg,
         releases := sorted.map (fun kv =>
           (kv.1, { kv.2 with files := insertionSort fileEntryLe kv.2.files })) }

/-- The four `<a>` tags of the `WOAH_INDEX_CONTENTS` HTML fixture from the
repository's tests, as the attribute lists the HTML tokeniser yields
(`&gt;` decoded). -/
def woahTags : List (List (String × Option String)) :=
  [[("href", some "https://files.pythonhosted.org/packages/69/c9/a9951fcb2e706dd14cfc5d57a33eadc38a2b7477c82c12c229de5f6115db/woah-0.1-py3-none-any.whl#sha256=e705573ea8a88ec772174deea6a80c79f1e8b7e96130e27eee14b21d63f4e7f8"),
    ("data-requires-python", some ">=3.6")],
   [("href", some "https://files.pythonhosted.org/packages/8f/3f/cd6d2edb9cf7049788db971fb5359cbde9fb28801d55b1aafa8f0df4813a/woah-0.1.tar.gz#sha256=d0760a3696271db53c361c950d93ceca7a022b5d739c0005e3bfb65785dd9d97"),
    ("data-requires-python", some ">=3.6")],
   [("href", some "https://files.pythonhosted.org/packages/5e/95/871090fc9c10630d457b44967c9bb9c544b858cd3a2fe6dd60f9e169d99f/woah-0.2-py3-none-any.whl#sha256=e701a8d020a09fa32199cc74b386a3bf9730910fd46a6301fbb8203f287b27d7"),
    ("data-requires-python", some ">=3.6")],
   [("href", some "https://files.pythonhosted.org/packages/fb/f2/dc6873f2763ffb457d3dbe4224ea59b21a8495fa0ef86d230b78cdba0f22/woah-0.2.tar.gz#sha256=62a886ed5e16506c039216dc0b5f342e72228e2038c750a1a7574321af6d8d68"),
    ("data-requires-python", some ">=3.6")]]

/-- One file object of the JSON index's `releases` lists.  The
`upload_time_iso_8601` string is carried as the timestamp `parse_time`
yields for it (the datetime arithmetic is abstracted to the parsed value,
which the claims never inspect). -/
structure JsonFileObj where
  url : String
  filename : String
  sha256 : String
  requires_python : Option String := none
  size : Option Nat := none
  upload_time : Nat := 0
  deriving DecidableEq, Repr

/-- The JSON index document: the optional `requires_dist` list and the
`releases` mapping in document order. -/
structure JsonIndexObj where
  requires_dist : Option (List String) := none
  releases : List (String × List JsonFileObj)
  deriving DecidableEq, Repr

/-- `FileEntry.from_json` of releases.py: the checksum is
`f"sha256={obj['digests']['sha256']}"`, and the file type is re-guessed from
the filename (which may raise `UnexpectedFilename`); the version is the
release key, not guessed. -/
def FileEntry.from_json (version : String) (obj : JsonFileObj) :
    Except RelError FileEntry := do
  let ft ← guess_file_type obj.filename
  pure { url := obj.url, basename := obj.filename,
         checksum := "sha256=" ++ obj.sha256,
         file_type := ft, version := version,
         requires_python := obj.requires_python,
         size := obj.size,
         upload_time := some obj.upload_time }

/-- The release-gathering loop of the JSON branch: releases with no files
are dropped, each release's entries are built by `from_json` with
`UnexpectedFilename` files skipped unless strict, and the release is stored
under its parsed version (dict assignment). -/
def jsonGatherReleases (obj : JsonIndexObj) (strict : Bool) :
    Except RelError (List (String × PackageRelease)) :=
  obj.releases.foldlM
    (fun (rels : List (String × PackageRelease)) kr =>
      if kr.2.isEmpty then .ok rels
      else do
        let files ← kr.2.foldlM (fun (fs : List FileEntry) rf =>
          match FileEntry.from_json kr.1 rf with
          | .ok fe => .ok (fs ++ [fe])
          | .error (.UnexpectedFilename s) =>
            if strict then .error (.UnexpectedFilename s) else .ok fs
          | .error e => .error e) []
        .ok (setA rels (parse_version kr.1)
          { version := kr.1, parsed_version := parse_version kr.1,
            files := files }))
    []

/-- The JSON branch of `async_parse_index`: gather the releases, take
`requires_dist` when present, sort the releases mapping by version, and
sort each release's file list (`rel.files.sort()`). -/
def async_parse_index_json (pkg : String) (obj : JsonIndexObj)
    (strict : Bool) : Except RelError Package := do
  let releases ← jsonGatherReleases obj strict
  let sorted := insertionSort (fun a b => cmpLe cmpString a.1 b.1) releases
  pure { name := pkg,
         requires := obj.requires_dist,
         releases := sorted.map (fun kv =>
           (kv.1, { kv.2 with files := insertionSort fileEntryLe kv.2.files })) }

/-- The two input shapes `async_parse_index` reads (`use_json=False/True`). -/
inductive IndexInput
  | html (tags : List (List (String × Option String)))
  | json (obj : JsonIndexObj)

/-- `async_parse_index` of releases.py, dispatching on the input shape. -/
def async_parse_index (pkg : String) (inp : IndexInput) (strict : Bool) :
    Except RelError Package :=
  match inp with
  | .html tags => async_parse_index_html pkg tags strict
  | .json obj => async_parse_index_json pkg obj strict

/-- The woah fixture as the JSON endpoint would serve it: the same four
files keyed by release, plus a pre-warehouse release with no files. -/
def woahJson : JsonIndexObj :=
  { requires_dist := none,
    releases :=
      [("0.0", []),
       ("0.1",
        [{ url := "https://files.pythonhosted.org/packages/69/c9/a9951fcb2e706dd14cfc5d57a33eadc38a2b7477c82c12c229de5f6115db/woah-0.1-py3-none-any.whl",
           filename := "woah-0.1-py3-none-any.whl",
           sha256 := "e705573ea8a88ec772174deea6a80c79f1e8b7e96130e27eee14b21d63f4e7f8",
           requires_python := some ">=3.6" },
         { url := "https://files.pythonhosted.org/packages/8f/3f/cd6d2edb9cf7049788db971fb5359cbde9fb28801d55b1aafa8f0df4813a/woah-0.1.tar.gz",
           filename := "woah-0.1.tar.gz",
           sha256 := "d0760a3696271db53c361c950d93ceca7a022b5d739c0005e3bfb65785dd9d97",
           requires_python := some ">=3.6" }]),
       ("0.2",
        [{ url := "https://files.pythonhosted.org/packages/5e/95/871090fc9c10630d457b44967c9bb9c544b858cd3a2fe6dd60f9e169d99f/woah-0.2-py3-none-any.whl",
           filename := "woah-0.2-py3-none-any.whl",
           sha256 := "e701a8d020a09fa32199cc74b386a3bf9730910fd46a6301fbb8203f287b27d7",
           requires_python := some ">=3.6" },
         { url := "https://files.pythonhosted.org/packages/fb/f2/dc6873f2763ffb457d3dbe4224ea59b21a8495fa0ef86d230b78cdba0f22/woah-0.2.tar.gz",
           filename := "woah-0.2.tar.gz",
           sha256 := "62a886ed5e16506c039216dc0b5f342e72228e2038c750a1a7574321af6d8d68",
           requires_python := some ">=3.6" }])] }

/-- Sortedness of a file list by (kind, basename), as the specification
states it (a spec-side definition, to be compared with the code's order). -/
def kindBasenameLe (a b : FileEntry) : Bool :=
  cmpLe (cmpLex (fun x y => cmpNat x.file_type.toNat y.file_type.toNat)
                (fun x y => cmpString x.basename y.basename)) a b

/-- Boolean adjacent-pairs sortedness check. -/
def pairwiseSortedB {α : Type} (le : α → α → Bool) : List α → Bool
  | [] => true
  | [_] => true
  | a :: b :: l => le a b && pairwiseSortedB le (b :: l)

theorem pairwiseSortedB_of_pairwise {α : Type} {le : α → α → Bool} {l : List α}
    (h : l.Pairwise (fun x y => le x y = true)) : pairwiseSortedB le l = true := by
  induction l with
  | nil => rfl
  | cons a l ih =>
    rcases List.pairwise_cons.mp h with ⟨ha, hl⟩
    cases l with
    | nil => rfl
    | cons b l' =>
      simp only [pairwiseSortedB, Bool.and_eq_true]
      exact ⟨ha b (by simp), ih hl⟩

/-- Every release of a parsed package has its file list sorted. -/
def allReleasesSorted (le : FileEntry → FileEntry → Bool) (p : Package) : Bool :=
  p.releases.all (fun kv => pairwiseSortedB le kv.2.files)

theorem endsWithA_getLast {b s : String} (h : endsWithA b s = true) {c : Char}
    (hc : s.data.getLast? = some c) : b.data.getLast? = some c := by
  have hsuf : s.data <:+ b.data := List.isSuffixOf_iff_suffix.mp h
  rcases hsuf with ⟨t, ht⟩
  rw [← ht, List.getLast?_append, hc]
  rfl

theorem not_endsWithA_of_last {b : String} {c : Char}
    (hl : b.data.getLast? = some c) (s : String) (d : Char)
    (hd : s.data.getLast? = some d) (hne : c ≠ d) : endsWithA b s = false := by
  cases hb : endsWithA b s
  · rfl
  · have hbd := endsWithA_getLast hb hd
    rw [hl] at hbd
    exact absurd (Option.some.inj hbd) hne

/-- A basename with an sdist extension ends in `z`, `p` or `2`, so none of
the six bdist-extension checks of `guess_file_type` can fire. -/
theorem sdist_not_bdist_ext {b : String}
    (h : SDIST_EXTENSIONS.any (endsWithA b) = true) :
    endsWithA b ".egg" = false ∧ endsWithA b ".whl" = false ∧
    endsWithA b ".exe" = false ∧ endsWithA b ".msi" = false ∧
    endsWithA b ".rpm" = false ∧ endsWithA b ".dmg" = false := by
  have hlast : b.data.getLast? = some 'z' ∨ b.data.getLast? = some 'p' ∨
      b.data.getLast? = some '2' := by
    rcases List.any_eq_true.mp h with ⟨s, hs, he⟩
    simp only [SDIST_EXTENSIONS, List.mem_cons, List.not_mem_nil, or_false] at hs
    rcases hs with rfl | rfl | rfl | rfl
    · exact Or.inl (endsWithA_getLast he (by decide))
    · exact Or.inl (endsWithA_getLast he (by decide))
    · exact Or.inr (Or.inl (endsWithA_getLast he (by decide)))
    · exact Or.inr (Or.inr (endsWithA_getLast he (by decide)))
  rcases hlast with hl | hl | hl <;>
    exact ⟨not_endsWithA_of_last hl _ 'g' (by decide) (by decide),
           not_endsWithA_of_last hl _ 'l' (by decide) (by decide),
           not_endsWithA_of_last hl _ 'e' (by decide) (by decide),
           not_endsWithA_of_last hl _ 'i' (by decide) (by decide),
           not_endsWithA_of_last hl _ 'm' (by decide) (by decide),
           not_endsWithA_of_last hl _ 'g' (by decide) (by decide)⟩

/-! ## checker.py: run_checker

`run_checker(package, version, verbose, cache)` fetches every file of the
release and compares the hash map of each wheel/egg against the (last)
sdist's hash map.  Archive hashing (`archive_hashes(local_path, strip)`) is
an oracle parameter; `cache.fetch` returns a local path for a file's url,
modelled as the url itself.  Hash maps are association lists. -/

/-- `sorted(this_hashes.items())` sorts (key, value) pairs
lexicographically. -/
def pairLe (a b : String × String) : Bool :=
  cmpLe (cmpLex (fun x y => cmpString x.1 y.1) (fun x y => cmpString x.2 y.2)) a b

/-- The per-wheel loop body of run_checker: walk the sorted hash items,
or-ing 4 for a key missing from the sdist and 8 for a differing hash. -/
def checkWheelItems (sdist : List (String × String)) (rc : Nat) :
    List (String × String) → Nat
  | [] => rc
  | kh :: rest =>
    match lookupA sdist kh.1 with
    | none => checkWheelItems sdist (rc ||| 4) rest
    | some v =>
      if v != kh.2 then checkWheelItems sdist (rc ||| 8) rest
      else checkWheelItems sdist rc rest

def wheelOrEgg (fe : FileEntry) : Bool :=
  fe.file_type == FileType.BDIST_WHEEL || fe.file_type == FileType.BDIST_EGG

/-- The loop over the release's files that accumulates the result code over
every wheel/egg. -/
def bdistLoop (sdist : List (String × String))
    (ah : String → Bool → List (String × String)) (rc : Nat) :
    List FileEntry → Nat
  | [] => rc
  | fe :: rest =>
    if wheelOrEgg fe then
      bdistLoop sdist ah
        (checkWheelItems sdist rc (insertionSort pairLe (ah fe.url false))) rest
    else bdistLoop sdist ah rc rest

/-- `sdist_hashes`: hash every sdist with strip_top_level, the last one
winning. -/
def sdistHashes (files : List FileEntry)
    (ah : String → Bool → List (String × String)) : List (String × String) :=
  files.foldl
    (fun acc fe => if fe.file_type == FileType.SDIST then ah fe.url true else acc) []

/-- `run_checker` of checker.py (the result-code computation; progress bars
and message printing carry no result). -/
def run_checker (package : Package) (version : String)
    (ah : String → Bool → List (String × String)) : Except String Nat :=
  match lookupA package.releases version with
  | none => .error "version not available"
  | some rel =>
    let sdists := rel.files.filter (fun f => f.file_type == FileType.SDIST)
    if sdists.length = 0 then .ok 1
    else if sdists.length = rel.files.length then .ok 0
    else .ok (bdistLoop (sdistHashes rel.files ah) ah 0 rel.files)

/-- The result-code value determined by the two error conditions. -/
def rcFlags (m d : Bool) : Nat :=
  (if m then 4 else 0) ||| (if d then 8 else 0)

/-- Some wheel/egg of the release has a hashed member missing from the
sdist's hash map. -/
def hasMissing (files : List FileEntry)
    (ah : String → Bool → List (String × String)) : Bool :=
  files.any (fun fe => wheelOrEgg fe &&
    (ah fe.url false).any (fun kh => (lookupA (sdistHashes files ah) kh.1).isNone))

/-- Some wheel/egg of the release has a hashed member whose hash differs
from the sdist's. -/
def hasDiff (files : List FileEntry)
    (ah : String → Bool → List (String × String)) : Bool :=
  files.any (fun fe => wheelOrEgg fe &&
    (ah fe.url false).any (fun kh =>
      match lookupA (sdistHashes files ah) kh.1 with
      | none => false
      | some v => v != kh.2))

theorem rcFlags_or4 (m d : Bool) : rcFlags m d ||| 4 = rcFlags true d := by
  cases m <;> cases d <;> decide

theorem rcFlags_or8 (m d : Bool) : rcFlags m d ||| 8 = rcFlags m true := by
  cases m <;> cases d <;> decide

theorem checkWheelItems_spec (sdist : List (String × String))
    (items : List (String × String)) : ∀ m d : Bool,
    checkWheelItems sdist (rcFlags m d) items =
      rcFlags (m || items.any (fun kh => (lookupA sdist kh.1).isNone))
              (d || items.any (fun kh =>
                 match lookupA sdist kh.1 with
                 | none => false
                 | some v => v != kh.2)) := by
  induction items with
  | nil => intro m d; simp [checkWheelItems]
  | cons kh rest ih =>
    intro m d
    cases hl : lookupA sdist kh.1 with
    | none =>
      simp only [checkWheelItems, hl, List.any_cons]
      rw [rcFlags_or4, ih true d]
      simp
    | some v =>
      by_cases hv : (v != kh.2) = true
      · simp only [checkWheelItems, hl, List.any_cons, if_pos hv]
        rw [rcFlags_or8, ih m true]
        simp [hv]
      · have hv' : (v != kh.2) = false := by
          cases hvv : v != kh.2
          · rfl
          · exact absurd hvv hv
        simp only [checkWheelItems, hl, List.any_cons, if_neg hv]
        rw [ih m d]
        simp [hv']

theorem any_orderedInsert {α : Type} (le : α → α → Bool) (p : α → Bool) (a : α)
    (l : List α) : (orderedInsert le a l).any p = (p a || l.any p) := by
  induction l with
  | nil => simp [orderedInsert]
  | cons b l ih =>
    simp only [orderedInsert]
    by_cases h : le a b = true
    · rw [if_pos h]; simp
    · rw [if_neg h]
      simp only [List.any_cons, ih]
      cases p a <;> cases p b <;> simp

theorem any_insertionSort {α : Type} (le : α → α → Bool) (p : α → Bool)
    (l : List α) : (insertionSort le l).any p = l.any p := by
  induction l with
  | nil => rfl
  | cons b l ih => simp [insertionSort, any_orderedInsert, ih]

theorem bdistLoop_spec (sdist : List (String × String))
    (ah : String → Bool → List (String × String)) (files : List FileEntry) :
    ∀ m d : Bool,
    bdistLoop sdist ah (rcFlags m d) files =
      rcFlags
        (m || files.any (fun fe => wheelOrEgg fe &&
           (ah fe.url false).any (fun kh => (lookupA sdist kh.1).isNone)))
        (d || files.any (fun fe => wheelOrEgg fe &&
           (ah fe.url false).any (fun kh =>
              match lookupA sdist kh.1 with
              | none => false
              | some v => v != kh.2))) := by
  induction files with
  | nil => intro m d; simp [bdistLoop]
  | cons fe rest ih =>
    intro m d
    simp only [bdistLoop, List.any_cons]
    by_cases hw : wheelOrEgg fe = true
    · rw [if_pos hw, checkWheelItems_spec, ih]
      simp [hw, any_insertionSort, Bool.or_assoc]
    · rw [if_neg hw]
      have hw' : wheelOrEgg fe = false := by
        cases hww : wheelOrEgg fe
        · rfl
        · exact absurd hww hw
      rw [ih]
      simp [hw']

theorem bdistLoop_zero (sdist : List (String × String))
    (ah : String → Bool → List (String × String)) (files : List FileEntry) :
    bdistLoop sdist ah 0 files =
      rcFlags
        (files.any (fun fe => wheelOrEgg fe &&
           (ah fe.url false).any (fun kh => (lookupA sdist kh.1).isNone)))
        (files.any (fun fe => wheelOrEgg fe &&
           (ah fe.url false).any (fun kh =>
              match lookupA sdist kh.1 with
              | none => false
              | some v => v != kh.2))) := by
  have h := bdistLoop_spec sdist ah files false false
  simpa [rcFlags] using h

/-! ## cache.py: Cache.__init__ URL handling

`Cache.__init__` normalises the simple index URL and is supposed to store a
JSON index URL.  Optional arguments and environment variables are `Option
String`; Python truthiness (`if not x`) treats `None` and `""` as absent. -/

/-- `x if x else y` for an optional string (Python `or`-style defaulting). -/
def pyOrFalsy (a : Option String) (b : String) : String :=
  match a with
  | none => b
  | some s => if s = "" then b else s

/-- `os.environ.get(name, default)`. -/
def envGet (e : Option String) (d : String) : String := e.getD d

/-- The URL fields `Cache.__init__` stores, as (index_url, json_index_url).
Transcribed statement-for-statement from cache.py lines 61-74, including the
two statements that mention `json_index_url` but mutate and assign
`index_url`. -/
def cacheInitUrls (indexUrlArg jsonIndexUrlArg envIndexUrl envJsonIndexUrl :
    Option String) (defaultIndexUrl : String) : String × String :=
  let index_url := pyOrFalsy indexUrlArg (envGet envIndexUrl defaultIndexUrl)
  let index_url := if endsWithA index_url "/" then index_url else index_url ++ "/"
  let self_index_url := index_url
  let json_index_url :=
    pyOrFalsy jsonIndexUrlArg (envGet envJsonIndexUrl self_index_url)
  let index_url :=
    if endsWithA json_index_url "/" then index_url else index_url ++ "/"
  let self_json_index_url := index_url
  (self_index_url, self_json_index_url)

/-! ## cache.py: fetch

The on-disk cache is a map from path to bytes plus header sidecars (the
`.hdrs` JSON files are modelled as records).  HTTP is an oracle from (url,
conditional header) to a response; `fetch` additionally returns the new
filesystem and the list of HTTP calls it made. -/

/-- `posixpath.basename`: the part after the last slash. -/
def posixBasename (url : String) : String :=
  ⟨(url.data.reverse.takeWhile (fun c => c != '/')).reverse⟩

/-- Model of `urllib.parse.urljoin` for the cases the cache exercises: an
absolute url (one containing `://`) replaces the base; otherwise the url is
resolved against the base's directory (everything up to and including the
base's last slash). -/
def urljoinModel (base rel : String) : String :=
  if "://".data.IsInfix rel.data then rel
  else ⟨(base.data.reverse.dropWhile (fun c => c != '/')).reverse ++ rel.data⟩

/-- `cache_dir` of cache.py: shard by the first two and next two characters
of the package name. -/
def cache_dir_path (pkg : String) : String :=
  let a : String := ⟨pkg.data.take 2⟩
  let b0 := (pkg.data.drop 2).take 2
  let b : String := if b0.isEmpty then "--" else ⟨b0⟩
  a ++ "/" ++ b ++ "/" ++ pkg

/-- A parsed `.hdrs` sidecar. -/
structure HdrsRec where
  etag : Option String := none
  lastModified : Option String := none
  deriving DecidableEq, Repr

/-- The cache directory's state: file bytes and header sidecars. -/
structure CacheFS where
  files : List (String × String)
  hdrs : List (String × HdrsRec)
  deriving DecidableEq, Repr

structure HttpResp where
  status : Nat
  body : String
  etag : Option String := none
  lastModified : Option String := none

/-- A record of one HTTP request `fetch` issued. -/
structure HttpCall where
  url : String
  condHeader : Option (String × String)
  deriving DecidableEq, Repr

inductive CacheErr
  | NotImplementedError (s : String)
  | HTTPError (status : Nat)
  | AssertionError
  deriving DecidableEq, Repr

structure Prefetch where
  url : String
  localPath : String
  headers : Option (String × String)
  needsRecheck : Bool
  deriving DecidableEq, Repr

/-- `Cache._is_index_filename`. -/
def is_index_filename (name : String) : Bool :=
  name = "" || name = "json" || name = "691json"

/-- The URL resolved by `_fetch_common` (relative urls resolve against the
package's index page `index_url + pkg + "/"`). -/
def resolvedUrl (indexUrl pkg : String) (url : Option String) : String :=
  let pkg_url := urljoinModel indexUrl (pkg ++ "/")
  match url with
  | none => pkg_url
  | some u => urljoinModel pkg_url u

/-- The target filename resolved by `_fetch_common`. -/
def resolvedFilename (indexUrl pkg : String) (url : Option String)
    (filename : Option String) : String :=
  match filename with
  | some f => if f = "" then posixBasename (resolvedUrl indexUrl pkg url) else f
  | none => posixBasename (resolvedUrl indexUrl pkg url)

/-- The cache path `_fetch_common` stores to. -/
def outputFile (cachePath pkg fname : String) : String :=
  cachePath ++ "/" ++ cache_dir_path pkg ++ "/" ++
    (if fname = "" then "index.html" else fname)

/-- `Cache._fetch_common`. -/
def fetch_common (cachePath indexUrl : String) (fs : CacheFS) (pkg : String)
    (url : Option String) (filename : Option String) : Except CacheErr Prefetch :=
  if pkg.data.contains '&' || pkg.data.contains '#' then
    .error (.NotImplementedError "parse_index does not handle entities yet")
  else
    let u := resolvedUrl indexUrl pkg url
    let fname := resolvedFilename indexUrl pkg url filename
    let output_file := outputFile cachePath pkg fname
    if (lookupA fs.files output_file).isSome && !is_index_filename fname then
      .ok { url := u, localPath := output_file, headers := none,
            needsRecheck := false }
    else
      let headers :=
        if (lookupA fs.files output_file).isSome then
          match lookupA fs.hdrs (output_file ++ ".hdrs") with
          | some h =>
            match h.etag with
            | some e => some ("If-None-Match", e)
            | none =>
              match h.lastModified with
              | some lm => some ("If-Modified-Since", lm)
              | none => none
          | none => none
        else none
      .ok { url := u, localPath := output_file, headers := headers,
            needsRecheck := true }

/-- `Cache.fetch` (sync path): returns the local path, the new filesystem
state, and the HTTP calls made. -/
def fetch (cachePath indexUrl : String)
    (http : String → Option (String × String) → HttpResp) (fs : CacheFS)
    (pkg : String) (url : Option String) (filename : Option String) :
    Except CacheErr (String × CacheFS × List HttpCall) :=
  match fetch_common cachePath indexUrl fs pkg url filename with
  | .error e => .error e
  | .ok pre =>
    if !pre.needsRecheck then
      .ok (pre.localPath, fs, [])
    else
      let resp := http pre.url pre.headers
      let calls := [{ url := pre.url, condHeader := pre.headers : HttpCall }]
      if 400 ≤ resp.status then .error (.HTTPError resp.status)
      else if resp.status = 304 then
        if (lookupA fs.files pre.localPath).isSome then
          .ok (pre.localPath, fs, calls)
        else .error .AssertionError
      else
        let fs1 : CacheFS := { fs with files := setA fs.files pre.localPath resp.body }
        let hr : HdrsRec :=
          match resp.etag with
          | some e => { etag := some e }
          | none =>
            match resp.lastModified with
            | some lm => { lastModified := some lm }
            | none => {}
        let fs2 : CacheFS := { fs1 with hdrs := setA fs1.hdrs (pre.localPath ++ ".hdrs") hr }
        .ok (pre.localPath, fs2, calls)

/-! ## deps.py: convert_sdist_requires

Converts the requires.txt section-header form into requirement strings.
Lines are Python strings modelled as `List Char`; `str.strip`, slicing and
`str.split(":", 1)` are implemented on lists. -/

/-- Python `str` whitespace (the ASCII part; requires.txt is ASCII). -/
def isSpaceChar (c : Char) : Bool :=
  c = ' ' || c = '\t' || c = '\r' || c = '\n' || c = '\x0b' || c = '\x0c'

/-- `line.strip()`. -/
def trimL (l : List Char) : List Char :=
  ((l.dropWhile isSpaceChar).reverse.dropWhile isSpaceChar).reverse

/-- The single-quote character (ASCII 39). -/
def sqChar : Char := Char.ofNat 39

/-- Python `repr` of a string with no quotes or escapes in it. -/
def pyReprL (s : List Char) : List Char := sqChar :: (s ++ [sqChar])

/-- The marker-context string computed from a section header `[inner]`. -/
def headerCtxL (inner : List Char) : List Char :=
  if inner.contains ':' then
    let extra := inner.takeWhile (fun c => c != ':')
    let markers := inner.drop (extra.length + 1)
    if extra.isEmpty then markers
    else ('(' :: (markers ++ [')'])) ++ " and extra == ".data ++ pyReprL extra
  else "extra == ".data ++ pyReprL inner

/-- One loop iteration of `convert_sdist_requires`: the state is
(current_markers, emitted list). -/
def convStep (st : Option (List Char) × List (List Char)) (line : List Char) :
    Option (List Char) × List (List Char) :=
  let line := trimL line
  if line.isEmpty then st
  else if (line.head? == some '[') && (line.getLast? == some ']') then
    (some (headerCtxL (line.drop 1).dropLast), st.2)
  else
    match st.1 with
    | some cm =>
      if cm.isEmpty then (st.1, st.2 ++ [line])
      else (st.1, st.2 ++ [line ++ "; ".data ++ cm])
    | none => (st.1, st.2 ++ [line])

def convertLines (lines : List (List Char)) : List (List Char) :=
  (lines.foldl convStep (none, [])).2

/-- Helper for `splitlines`: split at each newline (reversed accumulator). -/
def splitLinesGo (acc : List Char) : List Char → List (List Char)
  | [] => [acc.reverse]
  | c :: r =>
    if c = '\n' then acc.reverse :: splitLinesGo [] r
    else splitLinesGo (c :: acc) r

/-- `data.splitlines()` restricted to the `\n` terminator: no empty final
line when the string ends with a terminator, and no lines at all for "". -/
def splitLinesL (s : List Char) : List (List Char) :=
  match s with
  | [] => []
  | _ =>
    let parts := splitLinesGo [] s
    if s.getLast? = some '\n' then parts.dropLast else parts

/-- `convert_sdist_requires` of deps.py. -/
def convert_sdist_requires (data : String) : List String :=
  (convertLines (splitLinesL data.data)).map (fun l => (⟨l⟩ : String))

/-- A line that `convert_sdist_requires` emits: nonempty after stripping and
not a section header. -/
def isPlainL (l : List Char) : Bool :=
  !(trimL l).isEmpty &&
    !(((trimL l).head? == some '[') && ((trimL l).getLast? == some ']'))

theorem bnot_true_eq_false {b : Bool} (h : (!b) = true) : b = false := by
  cases b
  · rfl
  · exact absurd h (by decide)

theorem convStep_plain_none {st : Option (List Char) × List (List Char)}
    {l : List Char} (hp : isPlainL l = true) (h0 : st.1 = none) :
    convStep st l = (st.1, st.2 ++ [trimL l]) := by
  rw [isPlainL, Bool.and_eq_true] at hp
  have h1 := bnot_true_eq_false hp.1
  have h2 := bnot_true_eq_false hp.2
  simp only [convStep, h1, h2, h0, Bool.false_eq_true, if_false]

theorem convStep_plain_some {st : Option (List Char) × List (List Char)}
    {l cm : List Char} (hp : isPlainL l = true) (h0 : st.1 = some cm)
    (hcm : cm.isEmpty = false) :
    convStep st l = (st.1, st.2 ++ [trimL l ++ "; ".data ++ cm]) := by
  rw [isPlainL, Bool.and_eq_true] at hp
  have h1 := bnot_true_eq_false hp.1
  have h2 := bnot_true_eq_false hp.2
  simp only [convStep, h1, h2, h0, hcm, Bool.false_eq_true, if_false]

theorem trimL_bracket (h : List Char) :
    trimL ('[' :: (h ++ [']'])) = '[' :: (h ++ [']']) := by
  unfold trimL
  rw [List.dropWhile_cons, if_neg (by decide : ¬ (isSpaceChar '[' = true))]
  have hrev : ('[' :: (h ++ [']'])).reverse = ']' :: (h.reverse ++ ['[']) := by
    simp
  rw [hrev, List.dropWhile_cons, if_neg (by decide : ¬ (isSpaceChar ']' = true)),
    ← hrev, List.reverse_reverse]

theorem convStep_header {st : Option (List Char) × List (List Char)}
    {h : List Char} :
    convStep st ('[' :: (h ++ [']'])) = (some (headerCtxL h), st.2) := by
  have hlast : ('[' :: (h ++ [']'])).getLast? = some ']' := by
    rw [show '[' :: (h ++ [']']) = ('[' :: h) ++ [']'] from by simp,
      List.getLast?_append]
    rfl
  have hne : ('[' :: (h ++ [']'])).isEmpty = false := rfl
  simp only [convStep, trimL_bracket, hlast, hne, Bool.false_eq_true, if_false,
    List.head?_cons]
  rw [if_pos (by decide)]
  simp

/-! ## deps.py: the walker's package model and _find_compatible_version

Parsed PEP 440 versions are modelled as `Nat` (identity and total order are
all the code uses).  A specifier set is its satisfaction predicate
`Nat → Bool`; a `requires_python` string is either malformed (raising
`InvalidSpecifier` when parsed) or a predicate.  Markers carry their clause
list (for the `extra ==` scan) and the value `packaging` evaluates them to
in the walker's environment. -/

inductive RPSpec
  | malformed
  | valid (contains : Nat → Bool)

/-- One clause `(variable, op, value)` of a parsed marker
(`Marker._markers`). -/
structure MarkerClause where
  var : String
  op : String
  value : String

/-- A parsed requirement marker: its clauses and the value
`_do_markers_match` computes for it (with empty extras). -/
structure WMarker where
  clauses : List MarkerClause
  value : Bool

/-- A parsed `Requirement`. -/
structure WReq where
  name : String
  extras : List String
  specStr : String
  specifier : Nat → Bool
  marker : Option WMarker

/-- One file entry as the walker sees it. -/
structure WFile where
  file_type : FileType
  url : String
  size : Option Nat := none
  requiresPython : Option RPSpec := none
  uploadTime : Option Nat := none

/-- A release: files, the optional inline requires list, and the
requirement lists that reading the wheel / sdist metadata would yield
(the `read_metadata_*` oracles). -/
structure WRelease where
  files : List WFile
  requires : Option (List WReq) := none
  wheelDeps : List WReq := []
  sdistDeps : List WReq := []

structure WPackage where
  name : String
  releases : List (Nat × WRelease)

/-- Python `fe.upload_time < oldest_file`; comparisons that would raise
`TypeError` (a `None` operand) are modelled as False. -/
def ltOptTime (a b : Option Nat) : Bool :=
  match a, b with
  | some x, some y => x < y
  | _, _ => false

/-- The `oldest_file` loop of `_find_compatible_version`. -/
def oldestFileTime (files : List WFile) : Option Nat :=
  files.foldl (fun oldest fe =>
    if oldest.isNone || ltOptTime fe.uploadTime oldest then fe.uploadTime
    else oldest) none

/-- The first file with a (truthy) requires_python, whose specifier is used
for the whole release. -/
def firstRequiresPython (files : List WFile) : Option RPSpec :=
  match files.find? (fun fe => fe.requiresPython.isSome) with
  | some fe => fe.requiresPython
  | none => none

/-- One release's contribution to `possible` (trim_newer cutoff and
requires_python filter). -/
def fcStep (pythonVersion : Nat) (trimNewer : Option Nat) (acc : List Nat)
    (kv : Nat × WRelease) : List Nat :=
  let skip_trim : Bool :=
    match trimNewer with
    | some tn =>
      match oldestFileTime kv.2.files with
      | some t => decide (tn < t)
      | none => false
    | none => false
  if skip_trim then acc
  else
    match firstRequiresPython kv.2.files with
    | none => acc ++ [kv.1]
    | some .malformed => acc
    | some (.valid contains) =>
      if contains pythonVersion then acc ++ [kv.1] else acc

/-- Steps 1-2 of `_find_compatible_version`: the `possible` list after the
trim_newer cutoff and the requires_python filter, in releases order. -/
def fcPossible (package : WPackage) (pythonVersion : Nat)
    (trimNewer : Option Nat) : List Nat :=
  package.releases.foldl (fcStep pythonVersion trimNewer) []

/-- The candidate list after appending a non-public installed version and
filtering through the requirement's specifier set (steps 4-5). -/
def fcCandidates (package : WPackage) (specifiers : Nat → Bool)
    (pythonVersion : Nat) (trimNewer : Option Nat)
    (cur_v : Option Nat) : List Nat :=
  let possible := fcPossible package pythonVersion trimNewer
  let possible :=
    match cur_v with
    | some cv =>
      if (package.releases.find? (fun (kv : Nat × WRelease) => kv.1 == cv)).isSome
      then possible
      else possible ++ [cv]
    | none => possible
  possible.filter specifiers

/-- The ranking tuple `(p == ac, p == cur_v, i, p)`. -/
def RankT : Type := Bool × Bool × Nat × Nat

def rankCmp : RankT → RankT → Ordering :=
  cmpLex (fun a b => cmpBool a.1 b.1) <|
  cmpLex (fun a b => cmpBool a.2.1 b.2.1) <|
  cmpLex (fun a b => cmpNat a.2.2.1 b.2.2.1)
    (fun a b => cmpNat a.2.2.2 b.2.2.2)

theorem rankCmp_law : CmpLaw rankCmp :=
  (cmpLaw_comap cmpBool_law _).lex <|
  (cmpLaw_comap cmpBool_law _).lex <|
  (cmpLaw_comap cmpNat_law _).lex (cmpLaw_comap cmpNat_law _)

def rankLe (a b : RankT) : Bool := cmpLe rankCmp a b

/-- The ranking tuple built for candidate `p` at index `i`. -/
def rankTuple (ac cur_v : Option Nat) (i p : Nat) : RankT :=
  (ac == some p, cur_v == some p, i, p)

/-- `_find_compatible_version` of deps.py. -/
def find_compatible_version (package : WPackage) (specifiers : Nat → Bool)
    (pythonVersion : Nat) (trimNewer : Option Nat)
    (alreadyChosen : List (String × Nat))
    (cvc : Option (String → Option Nat)) : Except String Nat :=
  let possible0 := fcPossible package pythonVersion trimNewer
  if possible0.isEmpty then
    .error (package.name ++ " incompatible with python_version")
  else
    let cur_v : Option Nat :=
      match cvc with
      | none => none
      | some f => f package.name
    let possible := fcCandidates package specifiers pythonVersion trimNewer cur_v
    if possible.isEmpty then
      .error (package.name ++ " has no compatible release with constraint")
    else
      let ac := lookupA alreadyChosen package.name
      let xform := insertionSort rankLe
        (possible.enum.map (fun ip => rankTuple ac cur_v ip.1 ip.2))
      .ok (xform.getLastD (false, false, 0, 0)).2.2.2

theorem orderedInsert_ne_nil {α : Type} (le : α → α → Bool) (a : α)
    (l : List α) : orderedInsert le a l ≠ [] := by
  cases l with
  | nil => simp [orderedInsert]
  | cons b l =>
    simp only [orderedInsert]
    by_cases h : le a b = true
    · rw [if_pos h]; simp
    · rw [if_neg h]; simp

theorem insertionSort_ne_nil {α : Type} {le : α → α → Bool} {l : List α}
    (h : l ≠ []) : insertionSort le l ≠ [] := by
  cases l with
  | nil => exact absurd rfl h
  | cons b l => exact orderedInsert_ne_nil le b _

theorem getLastD_mem {α : Type} {l : List α} (h : l ≠ []) (d : α) :
    l.getLastD d ∈ l := by
  rw [List.getLastD_eq_getLast?, List.getLast?_eq_getLast l h]
  exact List.getLast_mem h

/-- The last element of the sorted list is a member and an upper bound. -/
theorem sortLast_spec {α : Type} {le : α → α → Bool}
    (htot : ∀ a b, le a b || le b a) (htr : ∀ a b d, le a b → le b d → le a d)
    {l : List α} (hne : l ≠ []) (d : α) :
    (insertionSort le l).getLastD d ∈ l ∧
      ∀ y ∈ l, le y ((insertionSort le l).getLastD d) := by
  refine ⟨mem_insertionSort.mp (getLastD_mem (insertionSort_ne_nil hne) d), ?_⟩
  intro y hy
  exact le_getLast_of_sorted htot (sorted_insertionSort htot htr l)
    (mem_insertionSort.mpr hy) d

theorem rankLe_fst {t m : RankT} (h : rankLe t m = true) (ht : t.1 = true) :
    m.1 = true := by
  cases hm : m.1
  · exfalso
    simp only [rankLe, cmpLe, rankCmp, cmpLex] at h
    rw [ht, hm] at h
    rw [show cmpBool true false = .gt from rfl, gt_then] at h
    exact absurd h (by decide)
  · rfl

theorem rankLe_snd {t m : RankT} (h : rankLe t m = true) (ht1 : t.1 = false)
    (hm1 : m.1 = false) (ht2 : t.2.1 = true) : m.2.1 = true := by
  cases hm : m.2.1
  · exfalso
    simp only [rankLe, cmpLe, rankCmp, cmpLex] at h
    rw [ht1, hm1, hm, ht2] at h
    rw [show cmpBool false false = .eq from rfl, eq_then,
        show cmpBool true false = .gt from rfl, gt_then] at h
    exact absurd h (by decide)
  · rfl

theorem rankLe_idx {t m : RankT} (h : rankLe t m = true) (h1 : t.1 = m.1)
    (h2 : t.2.1 = m.2.1) : t.2.2.1 ≤ m.2.2.1 := by
  by_cases hle : t.2.2.1 ≤ m.2.2.1
  · exact hle
  · exfalso
    have hgt : m.2.2.1 < t.2.2.1 := by omega
    simp only [rankLe, cmpLe, rankCmp, cmpLex] at h
    rw [h1, h2] at h
    rw [show ∀ b : Bool, cmpBool b b = .eq from fun b => cmpBool_law.refl b,
        eq_then,
        show ∀ b : Bool, cmpBool b b = .eq from fun b => cmpBool_law.refl b,
        eq_then, cmpNat_gt_iff.mpr hgt, gt_then] at h
    exact absurd h (by decide)

theorem mem_enum_map_rank {l : List Nat} {ac cv : Option Nat} {t : RankT}
    (h : t ∈ l.enum.map (fun ip => rankTuple ac cv ip.1 ip.2)) :
    ∃ i, l.get? i = some t.2.2.2 ∧ t = rankTuple ac cv i t.2.2.2 := by
  rcases List.mem_map.mp h with ⟨⟨i, p⟩, hip, rfl⟩
  have hg := List.mem_enum_iff_get?.mp hip
  exact ⟨i, by simpa using hg, rfl⟩

theorem tuple_mem_enum_map {l : List Nat} {ac cv : Option Nat} {i p : Nat}
    (h : l.get? i = some p) :
    rankTuple ac cv i p ∈ l.enum.map (fun ip => rankTuple ac cv ip.1 ip.2) :=
  List.mem_map.mpr ⟨(i, p), List.mem_enum_iff_get?.mpr (by simpa using h), rfl⟩

/-! ## deps.py: DepWalker.walk

The walk loop is modelled as a step function on an explicit state, driven by
fuel; exceptions (unknown package, version-selection failures, assertion
failures) abort the walk.  The worker pool and futures map only memoise the
pure `parse_index`, so fetching is modelled as a lookup in a finite universe
of packages. -/

/-- `packaging.utils.canonicalize_name`: lowercase, runs of `-_.` collapsed
to a single `-`. -/
def canonChar (c : Char) : Bool := c = '-' || c = '_' || c = '.'

def canonAux (prevSep : Bool) : List Char → List Char
  | [] => []
  | c :: r =>
    if canonChar c then
      if prevSep then canonAux true r else '-' :: canonAux true r
    else c.toLower :: canonAux false r

def canonicalize_name (s : String) : String := ⟨canonAux false s.data⟩

def is_canonical (name : String) : Bool := name == canonicalize_name name

/-- A node key `(canonical-name, chosen-version, sorted-extras-or-None)`. -/
abbrev WKey := String × Nat × Option (List String)

/-- `DepNode` (without the edge list, which lives in `WalkState.edges`). -/
structure WNode where
  name : String
  version : Nat
  hasSdist : Option Bool
  hasBdist : Option Bool
  depExtras : Option (List String)
  done : Bool

/-- A `DepEdge`, recorded as (parent key or root, target key, specifier). -/
structure WEdge where
  parent : Option WKey
  target : WKey
  constraints : String

/-- A queue entry `(parent, canonical name, future, requirement)`. -/
structure QItem where
  parent : Option WKey
  name : String
  req : WReq

structure WalkState where
  queue : List QItem
  nodes : List (WKey × WNode)
  edges : List WEdge
  alreadyChosen : List (String × Nat)
  knownConflicts : List String
  fetched : List WKey

/-- The finite universe of packages the index can serve. -/
structure WUniverse where
  pkgs : List (String × WPackage)

structure WalkParams where
  pythonVersion : Nat
  trimNewer : Option Nat
  includeExtras : Bool
  onlyFirst : Bool
  cvc : Option (String → Option Nat)

/-- `parse_index(pkg, …)` through the future: returns `Package(name=pkg)`. -/
def fetchPkg (u : WUniverse) (name : String) : Option WPackage :=
  (lookupA u.pkgs name).map (fun p => { p with name := name })

/-- The `extra ==` scan over a marker's clauses (the assert on the operator
aborts). The last `extra` clause wins. -/
def extractExtraStr (clauses : List MarkerClause) : Except String (Option String) :=
  clauses.foldlM (fun acc t =>
    if t.var = "extra" then
      if t.op = "==" then (.ok (some t.value) : Except String (Option String))
      else .error "assert str(t[1]) == =="
    else .ok acc) none

def markerClausesOf (d : WReq) : List MarkerClause :=
  match d.marker with
  | some mk => mk.clauses
  | none => []

/-- The enqueue gate of the walk loop:
`extra_str is None or (include_extras and extra_str in req.extras)`. -/
def gatePass (includeExtras : Bool) (reqExtras : List String) (d : WReq) : Bool :=
  match extractExtraStr (markerClausesOf d) with
  | .ok none => true
  | .ok (some e) => includeExtras && reqExtras.contains e
  | .error _ => false

/-- Walk the discovered dependencies, gating extras; an assert failure in
the marker scan aborts. -/
def gateDeps (includeExtras : Bool) (reqExtras : List String) :
    List WReq → Except String (List WReq)
  | [] => .ok []
  | d :: rest =>
    match extractExtraStr (markerClausesOf d) with
    | .error e => .error e
    | .ok extraStr =>
      match gateDeps includeExtras reqExtras rest with
      | .error e => .error e
      | .ok tail =>
        if extraStr.isNone ||
            (includeExtras &&
              (extraStr.map (fun e => reqExtras.contains e)).getD false) then
          .ok (d :: tail)
        else .ok tail

/-- `DepWalker._fetch_single_deps` for a package and chosen version. -/
def fetch_single_deps (package : WPackage) (v : Nat) : Except String (List WReq) :=
  match lookupA package.releases v with
  | none => .ok []
  | some rel =>
    match rel.requires with
    | some tmp => .ok tmp
    | none =>
      if (rel.files.find? (fun fe => fe.file_type == FileType.BDIST_WHEEL)).isSome
      then .ok rel.wheelDeps
      else if (rel.files.find? (fun fe => fe.file_type == FileType.SDIST)).isSome
      then .ok rel.sdistDeps
      else .error ("No whl/sdist for " ++ package.name)

inductive StepResult
  | next (s : WalkState)
  | finished (s : WalkState)
  | aborted (s : WalkState)

def strLe (a b : String) : Bool := cmpLe cmpString a b

/-- The conflict bookkeeping at the top of a walk iteration: a key whose
name was already chosen at a different version is recorded once in
known_conflicts. -/
def conflictStep (s : WalkState) (key : WKey) : WalkState :=
  match lookupA s.alreadyChosen key.1 with
  | some c =>
    if c ≠ key.2.1 then
      if s.knownConflicts.contains key.1 then s
      else { s with knownConflicts := s.knownConflicts ++ [key.1] }
    else s
  | none => s

/-- `self.already_chosen[key.name] = key.version`. -/
def chooseStep (s : WalkState) (key : WKey) : WalkState :=
  { s with alreadyChosen := setA s.alreadyChosen key.1 key.2.1 }

/-- Reuse the node of `key` or create it (not yet done). -/
def nodeStep (s : WalkState) (key : WKey) (qi : QItem) (package : WPackage)
    (v : Nat) (hasS hasB : Option Bool) : WNode × WalkState :=
  match lookupA s.nodes key with
  | some n => (n, s)
  | none =>
    let n : WNode :=
      { name := package.name, version := v, hasSdist := hasS, hasBdist := hasB,
        depExtras := some qi.req.extras, done := false }
    (n, { s with nodes := setA s.nodes key n })

/-- Record the edge from the parent to this key. -/
def edgeStep (s : WalkState) (qi : QItem) (key : WKey) : WalkState :=
  { s with edges := s.edges ++
    [{ parent := qi.parent, target := key, constraints := qi.req.specStr }] }

/-- The tail of a walk iteration after the bookkeeping: the done check,
dependency fetch, gating, enqueue, and marking done. -/
def walkTail (params : WalkParams) (s : WalkState) (node : WNode)
    (rest : List QItem) (qi : QItem) (package : WPackage) (v : Nat)
    (key : WKey) : StepResult :=
  if node.done then .next { s with queue := rest }
  else if params.onlyFirst then .finished { s with queue := rest }
  else
    match fetch_single_deps package v with
    | .error _ => .aborted s
    | .ok deps =>
      match gateDeps params.includeExtras qi.req.extras deps with
      | .error _ => .aborted s
      | .ok gated =>
        let newItems := gated.map (fun d =>
          { parent := some key, name := canonicalize_name d.name, req := d : QItem })
        .next { s with
          queue := rest ++ newItems,
          nodes := setA s.nodes key { node with done := true },
          fetched := s.fetched ++ [key] }

/-- The tail of a walk iteration once the node key and has_sdist/has_bdist
are known: conflict bookkeeping, node creation, edge recording, then the
done check, dependency fetch, gating, enqueue, and marking done. -/
def walkAfterKey (params : WalkParams) (s : WalkState) (rest : List QItem)
    (qi : QItem) (package : WPackage) (v : Nat) (key : WKey)
    (hasS hasB : Option Bool) : StepResult :=
  let s := conflictStep s key
  let s := chooseStep s key
  let ns := nodeStep s key qi package v hasS hasB
  walkTail params (edgeStep ns.2 qi key) ns.1 rest qi package v key

/-- One iteration of the `while self.queue` loop of `DepWalker.walk`. -/
def walkStep (u : WUniverse) (params : WalkParams) (s : WalkState) : StepResult :=
  match s.queue with
  | [] => .finished s
  | qi :: rest =>
    if (match qi.req.marker with | some mk => !mk.value | none => false) then
      .next { s with queue := rest }
    else
      match fetchPkg u qi.name with
      | none => .aborted s
      | some package =>
        match find_compatible_version package qi.req.specifier
            params.pythonVersion params.trimNewer s.alreadyChosen params.cvc with
        | .error _ => .aborted s
        | .ok v =>
          match lookupA package.releases v with
          | some rel =>
            if is_canonical package.name then
              walkAfterKey params s rest qi package v
                (package.name, v, some (insertionSort strLe qi.req.extras))
                (some (rel.files.any (fun fe => fe.file_type == FileType.SDIST)))
                (some (rel.files.any (fun fe => fe.file_type == FileType.BDIST_WHEEL)))
            else .aborted s
          | none =>
            if is_canonical qi.req.name then
              walkAfterKey params s rest qi package v (qi.req.name, v, none)
                none none
            else .aborted s

inductive WalkOutcome
  | running (s : WalkState)
  | finished (s : WalkState)
  | aborted (s : WalkState)

def WalkOutcome.state : WalkOutcome → WalkState
  | .running s => s
  | .finished s => s
  | .aborted s => s

def WalkOutcome.isTerminal : WalkOutcome → Bool
  | .running _ => false
  | _ => true

/-- Run the walk loop with the given fuel. -/
def walkRun (u : WUniverse) (params : WalkParams) :
    Nat → WalkState → WalkOutcome
  | 0, s => .running s
  | n + 1, s =>
    match walkStep u params s with
    | .next s' => walkRun u params n s'
    | .finished s' => .finished s'
    | .aborted s' => .aborted s'

/-- `DepWalker.enqueue` on the root requirements, plus the walk's initial
state (`already_chosen = {}`). -/
def enqueueRoots (roots : List WReq) : WalkState :=
  { queue := roots.map (fun r =>
      { parent := none, name := canonicalize_name r.name, req := r }),
    nodes := [], edges := [], alreadyChosen := [], knownConflicts := [],
    fetched := [] }

/-! ### Termination measure and invariants for the walk loop -/

theorem lookupA_nil {α β : Type} [DecidableEq α] (k : α) :
    lookupA ([] : List (α × β)) k = none := rfl

theorem lookupA_cons {α β : Type} [DecidableEq α] (a : α) (b : β)
    (l : List (α × β)) (k : α) :
    lookupA ((a, b) :: l) k = if a = k then some b else lookupA l k := by
  simp only [lookupA, List.find?]
  by_cases h : a = k
  · rw [if_pos h, show decide (a = k) = true from decide_eq_true h]
  · rw [if_neg h, show decide (a = k) = false from decide_eq_false h]

theorem lookupA_setA_self {α β : Type} [DecidableEq α] (l : List (α × β))
    (k : α) (v : β) : lookupA (setA l k v) k = some v := by
  induction l with
  | nil => simp [setA, lookupA_cons]
  | cons kv rest ih =>
    rcases kv with ⟨a, b⟩
    simp only [setA]
    by_cases h : a = k
    · rw [if_pos h, lookupA_cons, if_pos rfl]
    · rw [if_neg h, lookupA_cons, if_neg h]
      exact ih

theorem lookupA_setA_ne {α β : Type} [DecidableEq α] (l : List (α × β))
    (k k' : α) (v : β) (h : k' ≠ k) :
    lookupA (setA l k v) k' = lookupA l k' := by
  induction l with
  | nil =>
    simp only [setA, lookupA_cons, lookupA_nil]
    rw [if_neg (fun e => h e.symm)]
  | cons kv rest ih =>
    rcases kv with ⟨a, b⟩
    simp only [setA]
    by_cases hk : a = k
    · rw [if_pos hk, lookupA_cons, lookupA_cons,
        if_neg (fun e : k = k' => h e.symm),
        if_neg (fun e : a = k' => h (e.symm.trans hk))]
    · rw [if_neg hk, lookupA_cons, lookupA_cons]
      by_cases ha : a = k'
      · rw [if_pos ha, if_pos ha]
      · rw [if_neg ha, if_neg ha]
        exact ih

/-- All dependency lists the universe can ever serve. -/
def depsListsOf (u : WUniverse) : List (List WReq) :=
  u.pkgs.flatMap (fun p => p.2.releases.flatMap (fun kv =>
    [kv.2.requires.getD [], kv.2.wheelDeps, kv.2.sdistDeps]))

/-- An upper bound on the length of any dependency list. -/
def maxDepsLen (u : WUniverse) : Nat :=
  (depsListsOf u).foldl (fun m l => max m l.length) 0

/-- Every requirement that can ever be queued. -/
def allReqs (u : WUniverse) (roots : List WReq) : List WReq :=
  roots ++ (depsListsOf u).flatMap id

def pkgVersions (u : WUniverse) (n : String) : List Nat :=
  match lookupA u.pkgs n with
  | some p => p.releases.map (fun kv => kv.1)
  | none => []

def curVs (params : WalkParams) (n : String) : List Nat :=
  match params.cvc with
  | none => []
  | some f => match f n with | some c => [c] | none => []

/-- Every node key a queued requirement can give rise to. -/
def keysOfReq (u : WUniverse) (params : WalkParams) (r : WReq) : List WKey :=
  let n := canonicalize_name r.name
  let vs := pkgVersions u n ++ curVs params n
  vs.map (fun v => (n, v, some (insertionSort strLe r.extras))) ++
    vs.map (fun v => (r.name, v, none))

def allKeys (u : WUniverse) (params : WalkParams) (roots : List WReq) :
    List WKey :=
  ((allReqs u roots).flatMap (keysOfReq u params)).dedup

/-- Whether the node table marks key `k` done. -/
def doneN (nodes : List (WKey × WNode)) (k : WKey) : Bool :=
  match lookupA nodes k with
  | some n => n.done
  | none => false

/-- Whether the node of key `k` is marked done. -/
def doneB (s : WalkState) (k : WKey) : Bool := doneN s.nodes k

def undoneCount (u : WUniverse) (params : WalkParams) (roots : List WReq)
    (s : WalkState) : Nat :=
  ((allKeys u params roots).filter (fun k => !doneB s k)).length

/-- The termination measure of the walk loop. -/
def walkMeasure (u : WUniverse) (params : WalkParams) (roots : List WReq)
    (s : WalkState) : Nat :=
  s.queue.length + (maxDepsLen u + 1) * undoneCount u params roots s

/-- Queue entries carry known requirements under their canonical name. -/
def QueueInv (u : WUniverse) (roots : List WReq) (s : WalkState) : Prop :=
  ∀ qi ∈ s.queue, qi.req ∈ allReqs u roots ∧
    qi.name = canonicalize_name qi.req.name

/-- The fetch trace is duplicate-free and covered by done nodes. -/
def FetchInv (s : WalkState) : Prop :=
  s.fetched.Nodup ∧ ∀ k ∈ s.fetched, doneB s k = true

/-! ### Where a chosen version can come from -/

theorem fcStep_sub {py : Nat} {tn : Option Nat} {acc : List Nat}
    {kv : Nat × WRelease} {x : Nat} (h : x ∈ fcStep py tn acc kv) :
    x ∈ acc ∨ x = kv.1 := by
  simp only [fcStep] at h
  split at h
  · exact .inl h
  · split at h
    · rcases List.mem_append.mp h with h1 | h1
      · exact .inl h1
      · exact .inr (List.mem_singleton.mp h1)
    · exact .inl h
    · split at h
      · rcases List.mem_append.mp h with h1 | h1
        · exact .inl h1
        · exact .inr (List.mem_singleton.mp h1)
      · exact .inl h

theorem mem_foldl_fcStep {py : Nat} {tn : Option Nat} {x : Nat}
    (l : List (Nat × WRelease)) : ∀ acc : List Nat,
    x ∈ l.foldl (fcStep py tn) acc → x ∈ acc ∨ x ∈ l.map Prod.fst := by
  induction l with
  | nil => intro acc h; exact .inl h
  | cons kv t ih =>
    intro acc h
    rw [List.foldl_cons] at h
    rcases ih _ h with h1 | h1
    · rcases fcStep_sub h1 with h2 | h2
      · exact .inl h2
      · exact .inr (by rw [List.map_cons, h2]; exact List.mem_cons_self _ _)
    · exact .inr (by rw [List.map_cons]; exact List.mem_cons_of_mem _ h1)

theorem mem_fcPossible {package : WPackage} {py : Nat} {tn : Option Nat}
    {x : Nat} (h : x ∈ fcPossible package py tn) :
    x ∈ package.releases.map Prod.fst := by
  rcases mem_foldl_fcStep package.releases [] h with h1 | h1
  · exact absurd h1 (List.not_mem_nil x)
  · exact h1

theorem mem_fcCandidates {package : WPackage} {spec : Nat → Bool} {py : Nat}
    {tn : Option Nat} {cv : Option Nat} {x : Nat}
    (h : x ∈ fcCandidates package spec py tn cv) :
    x ∈ fcPossible package py tn ∨ cv = some x := by
  rcases cv with _ | cvv
  · simp only [fcCandidates] at h
    exact .inl (List.mem_filter.mp h).1
  · simp only [fcCandidates] at h
    have h' := (List.mem_filter.mp h).1
    by_cases hf : (package.releases.find?
        (fun (kv : Nat × WRelease) => kv.1 == cvv)).isSome
    · rw [if_pos hf] at h'
      exact .inl h'
    · rw [if_neg hf] at h'
      rcases List.mem_append.mp h' with h2 | h2
      · exact .inl h2
      · rw [List.mem_singleton.mp h2]
        exact .inr rfl

theorem ok_inj {ε α : Type} {x y : α} (h : (Except.ok x : Except ε α) = .ok y) :
    x = y := Except.ok.inj h

theorem sorted_pick_mem {possible : List Nat} {ac cv : Option Nat} {v : Nat}
    (hne : possible ≠ [])
    (hv : ((insertionSort rankLe (possible.enum.map
        (fun ip => rankTuple ac cv ip.1 ip.2))).getLastD
        ((false, false, 0, 0) : RankT)).2.2.2 = v) :
    v ∈ possible := by
  have hmapne : possible.enum.map (fun ip => rankTuple ac cv ip.1 ip.2) ≠ [] := by
    intro e
    apply hne
    have hl := congrArg List.length e
    rw [List.length_map, List.enum_length] at hl
    exact List.length_eq_zero.mp hl
  have hlast : (insertionSort rankLe (possible.enum.map
      (fun ip => rankTuple ac cv ip.1 ip.2))).getLastD ((false, false, 0, 0) : RankT)
      ∈ insertionSort rankLe (possible.enum.map (fun ip => rankTuple ac cv ip.1 ip.2)) :=
    getLastD_mem (insertionSort_ne_nil hmapne) _
  have hmem := mem_insertionSort.mp hlast
  obtain ⟨i, hget, -⟩ := mem_enum_map_rank hmem
  rw [hv] at hget
  exact List.get?_mem hget

theorem fcv_ok_mem {package : WPackage} {spec : Nat → Bool} {py : Nat}
    {tn : Option Nat} {ac : List (String × Nat)}
    {cvc : Option (String → Option Nat)} {v : Nat}
    (h : find_compatible_version package spec py tn ac cvc = .ok v) :
    v ∈ package.releases.map Prod.fst ∨
      ∃ f, cvc = some f ∧ f package.name = some v := by
  rcases cvc with _ | f
  · simp only [find_compatible_version] at h
    by_cases h0 : (fcPossible package py tn).isEmpty
    · rw [if_pos h0] at h
      exact Except.noConfusion h
    · rw [if_neg h0] at h
      by_cases h1 : (fcCandidates package spec py tn none).isEmpty
      · rw [if_pos h1] at h
        exact Except.noConfusion h
      · rw [if_neg h1] at h
        have hne : fcCandidates package spec py tn none ≠ [] := by
          intro e; rw [e] at h1; exact h1 rfl
        rcases mem_fcCandidates (sorted_pick_mem hne (ok_inj h)) with hL | hR
        · exact .inl (mem_fcPossible hL)
        · exact absurd hR (by simp)
  · simp only [find_compatible_version] at h
    by_cases h0 : (fcPossible package py tn).isEmpty
    · rw [if_pos h0] at h
      exact Except.noConfusion h
    · rw [if_neg h0] at h
      by_cases h1 : (fcCandidates package spec py tn (f package.name)).isEmpty
      · rw [if_pos h1] at h
        exact Except.noConfusion h
      · rw [if_neg h1] at h
        have hne : fcCandidates package spec py tn (f package.name) ≠ [] := by
          intro e; rw [e] at h1; exact h1 rfl
        rcases mem_fcCandidates (sorted_pick_mem hne (ok_inj h)) with hL | hR
        · exact .inl (mem_fcPossible hL)
        · exact .inr ⟨f, rfl, hR⟩

/-! ### The extras gate as a filter -/

theorem gateDeps_filter {ie : Bool} {ex : List String} :
    ∀ {deps gated : List WReq}, gateDeps ie ex deps = .ok gated →
      gated = deps.filter (gatePass ie ex) := by
  intro deps
  induction deps with
  | nil =>
    intro gated h
    rw [← ok_inj h]
    rfl
  | cons d rest ih =>
    intro gated h
    simp only [gateDeps] at h
    split at h
    · exact Except.noConfusion h
    · rename_i extraStr hx
      split at h
      · exact Except.noConfusion h
      · rename_i tail hg
        have htail := ih hg
        have hgp : gatePass ie ex d =
            (extraStr.isNone ||
              (ie && (extraStr.map (fun e => ex.contains e)).getD false)) := by
          unfold gatePass
          rw [hx]
          cases extraStr with
          | none => rfl
          | some e => rfl
        rw [List.filter_cons, hgp]
        split at h
        · rename_i hc
          rw [if_pos hc, ← ok_inj h, htail]
        · rename_i hc
          rw [if_neg hc, ← ok_inj h, htail]

/-! ### What a dependency fetch can return -/

theorem lookupA_mem {α β : Type} [DecidableEq α] {l : List (α × β)} {k : α}
    {v : β} (h : lookupA l k = some v) : (k, v) ∈ l := by
  unfold lookupA at h
  cases hf : l.find? (fun p => p.1 = k) with
  | none => rw [hf] at h; exact Option.noConfusion h
  | some p =>
    rw [hf] at h
    have hp := List.mem_of_find?_eq_some hf
    have hpk : p.1 = k := by
      have h2 := List.find?_some hf
      simpa using h2
    have hv : p.2 = v := Option.some.inj h
    rw [← hpk, ← hv]
    exact hp

theorem fetchPkg_eq {u : WUniverse} {n : String} {package : WPackage}
    (h : fetchPkg u n = some package) :
    ∃ p, lookupA u.pkgs n = some p ∧ package = { p with name := n } := by
  unfold fetchPkg at h
  cases hl : lookupA u.pkgs n with
  | none => rw [hl] at h; exact Option.noConfusion h
  | some p => rw [hl] at h; exact ⟨p, rfl, (Option.some.inj h).symm⟩

theorem fetch_single_deps_sub {u : WUniverse} {p package : WPackage} {v : Nat}
    {deps : List WReq} (hp : p ∈ u.pkgs.map Prod.snd)
    (hrel : package.releases = p.releases)
    (h : fetch_single_deps package v = .ok deps) :
    deps = [] ∨ deps ∈ depsListsOf u := by
  unfold fetch_single_deps at h
  rw [hrel] at h
  split at h
  · exact .inl (ok_inj h).symm
  · rename_i rel hr
    have hrelmem : (v, rel) ∈ p.releases := lookupA_mem hr
    have hmem3 : ∀ l ∈ [rel.requires.getD [], rel.wheelDeps, rel.sdistDeps],
        l ∈ depsListsOf u := by
      intro l hl
      unfold depsListsOf
      rcases List.mem_map.mp hp with ⟨kv, hkv, hkv2⟩
      exact List.mem_flatMap.mpr
        ⟨kv, hkv, List.mem_flatMap.mpr ⟨(v, rel), by rw [hkv2]; exact hrelmem, hl⟩⟩
    split at h
    · rename_i tmp hreq
      right
      rw [← ok_inj h]
      have hgd : rel.requires.getD [] = tmp := by rw [hreq]; rfl
      rw [← hgd]
      exact hmem3 _ (by simp)
    · rename_i hreq
      split at h
      · right
        rw [← ok_inj h]
        exact hmem3 _ (by simp)
      · split at h
        · right
          rw [← ok_inj h]
          exact hmem3 _ (by simp)
        · exact Except.noConfusion h

theorem le_foldl_maxlen (L : List (List WReq)) :
    ∀ init : Nat, init ≤ L.foldl (fun m l => max m l.length) init := by
  induction L with
  | nil => intro init; exact Nat.le_refl _
  | cons a t ih =>
    intro init
    exact le_trans (Nat.le_max_left init a.length) (ih _)

theorem le_maxDepsLen {u : WUniverse} {l : List WReq} (h : l ∈ depsListsOf u) :
    l.length ≤ maxDepsLen u := by
  unfold maxDepsLen
  have hgen : ∀ (L : List (List WReq)) (init : Nat), l ∈ L →
      l.length ≤ L.foldl (fun m x => max m x.length) init := by
    intro L
    induction L with
    | nil => intro init hmem; exact absurd hmem (List.not_mem_nil l)
    | cons a t ih =>
      intro init hmem
      rcases List.mem_cons.mp hmem with rfl | h2
      · exact le_trans (Nat.le_max_right init l.length) (le_foldl_maxlen t _)
      · exact ih _ h2
  exact hgen _ 0 h

/-! ### The done-key count drops when a key flips to done -/

theorem filter_length_lt {α : Type} {P Q : α → Bool} :
    ∀ {L : List α} {k : α}, L.Nodup → k ∈ L → P k = true → Q k = false →
      (∀ x ∈ L, x ≠ k → Q x = P x) →
      (L.filter Q).length < (L.filter P).length := by
  intro L
  induction L with
  | nil => intro k _ hk; exact absurd hk (List.not_mem_nil k)
  | cons a t ih =>
    intro k hnd hk hP hQ hagree
    have hnd' := List.nodup_cons.mp hnd
    rcases List.mem_cons.mp hk with rfl | hkt
    · rw [List.filter_cons, List.filter_cons, hP, hQ,
        if_pos rfl, if_neg (by decide : ¬(false = true))]
      have hfil : t.filter Q = t.filter P :=
        List.filter_congr (fun x hx =>
          hagree x (List.mem_cons_of_mem _ hx) (fun e => hnd'.1 (e ▸ hx)))
      rw [hfil]
      simpa using Nat.lt_succ_self (t.filter P).length
    · have hak : a ≠ k := fun e => hnd'.1 (e ▸ hkt)
      have hQa : Q a = P a := hagree a (List.mem_cons_self a t) hak
      rw [List.filter_cons, List.filter_cons, hQa]
      have hih := ih hnd'.2 hkt hP hQ
        (fun x hx hne => hagree x (List.mem_cons_of_mem a hx) hne)
      by_cases hpa : P a = true
      · rw [if_pos hpa, if_pos hpa]
        simpa using Nat.succ_lt_succ hih
      · rw [if_neg hpa, if_neg hpa]
        exact hih

/-! ### Bookkeeping steps leave the done table and the fetch trace alone -/

theorem doneN_setA_self (nd : List (WKey × WNode)) (k : WKey) (n' : WNode) :
    doneN (setA nd k n') k = n'.done := by
  unfold doneN
  rw [lookupA_setA_self]

theorem doneN_setA_ne (nd : List (WKey × WNode)) (key k : WKey) (n' : WNode)
    (h : k ≠ key) : doneN (setA nd key n') k = doneN nd k := by
  unfold doneN
  rw [lookupA_setA_ne _ _ _ _ h]

theorem doneN_of_lookup {nd : List (WKey × WNode)} {k : WKey} {n : WNode}
    (h : lookupA nd k = some n) : doneN nd k = n.done := by
  unfold doneN
  rw [h]

theorem doneN_of_lookup_none {nd : List (WKey × WNode)} {k : WKey}
    (h : lookupA nd k = none) : doneN nd k = false := by
  unfold doneN
  rw [h]

theorem doneB_congr {s t : WalkState} (h : t.nodes = s.nodes) (k : WKey) :
    doneB t k = doneB s k := by
  unfold doneB
  rw [h]

theorem conflictStep_eq (s : WalkState) (key : WKey) :
    conflictStep s key = s ∨
      conflictStep s key =
        { s with knownConflicts := s.knownConflicts ++ [key.1] } := by
  unfold conflictStep
  split
  · split
    · split
      · exact .inl rfl
      · exact .inr rfl
    · exact .inl rfl
  · exact .inl rfl

theorem conflictStep_nodes (s : WalkState) (key : WKey) :
    (conflictStep s key).nodes = s.nodes := by
  rcases conflictStep_eq s key with h | h <;> rw [h]

theorem conflictStep_fetched (s : WalkState) (key : WKey) :
    (conflictStep s key).fetched = s.fetched := by
  rcases conflictStep_eq s key with h | h <;> rw [h]

theorem chooseStep_nodes (s : WalkState) (key : WKey) :
    (chooseStep s key).nodes = s.nodes := rfl

/-- The node a walk iteration creates when the key is new. -/
def freshNode (qi : QItem) (package : WPackage) (v : Nat)
    (hasS hasB : Option Bool) : WNode :=
  { name := package.name, version := v, hasSdist := hasS, hasBdist := hasB,
    depExtras := some qi.req.extras, done := false }

theorem nodeStep_eq (s : WalkState) (key : WKey) (qi : QItem)
    (package : WPackage) (v : Nat) (hasS hasB : Option Bool) :
    (∃ n, lookupA s.nodes key = some n ∧
      nodeStep s key qi package v hasS hasB = (n, s)) ∨
    (lookupA s.nodes key = none ∧
      nodeStep s key qi package v hasS hasB =
        (freshNode qi package v hasS hasB,
         { s with nodes := setA s.nodes key (freshNode qi package v hasS hasB) })) := by
  unfold nodeStep
  cases h : lookupA s.nodes key with
  | some n => exact .inl ⟨n, rfl, rfl⟩
  | none => exact .inr ⟨rfl, rfl⟩

theorem fetchInv_transport {s t : WalkState} (hfe : t.fetched = s.fetched)
    (hdb : ∀ k, doneB t k = doneB s k) (hF : FetchInv s) : FetchInv t := by
  constructor
  · rw [hfe]; exact hF.1
  · intro k hk
    rw [hfe] at hk
    rw [hdb k]
    exact hF.2 k hk

/-! ### The measure strictly drops on every continuing step -/

theorem undoneCount_lt (u : WUniverse) (params : WalkParams)
    (roots : List WReq) {s s' : WalkState} {key : WKey}
    (hkey : key ∈ allKeys u params roots)
    (h0 : doneB s key = false) (h1 : doneB s' key = true)
    (hag : ∀ k, k ≠ key → doneB s' k = doneB s k) :
    undoneCount u params roots s' < undoneCount u params roots s := by
  unfold undoneCount
  refine filter_length_lt ?_ hkey ?_ ?_ ?_
  · unfold allKeys
    exact List.nodup_dedup _
  · show (!doneB s key) = true
    rw [h0]
    rfl
  · show (!doneB s' key) = false
    rw [h1]
    rfl
  · intro x hx hne
    show (!doneB s' x) = !doneB s x
    rw [hag x hne]

theorem measure_arith {r g M a b : Nat} (hg : g ≤ M) (hab : a + (M + 1) ≤ b) :
    r + g + a < r + 1 + b := by omega

theorem measure_step (u : WUniverse) (params : WalkParams) (roots : List WReq)
    {s s' : WalkState} {r g : Nat}
    (hqs : s.queue.length = r + 1) (hqs' : s'.queue.length = r + g)
    (hg : g ≤ maxDepsLen u)
    (hu : undoneCount u params roots s' < undoneCount u params roots s) :
    walkMeasure u params roots s' < walkMeasure u params roots s := by
  unfold walkMeasure
  rw [hqs, hqs']
  have h1 : undoneCount u params roots s' + 1 ≤ undoneCount u params roots s := hu
  have h2 := Nat.mul_le_mul_left (maxDepsLen u + 1) h1
  rw [Nat.mul_add, Nat.mul_one] at h2
  exact measure_arith hg h2

/-! ### One walk iteration preserves the invariants and shrinks the measure -/

/-- What one iteration guarantees: a continuing step keeps both invariants
and strictly shrinks the measure; a terminating step keeps the fetch
invariant. -/
def StepOK (u : WUniverse) (params : WalkParams) (roots : List WReq)
    (s : WalkState) : StepResult → Prop
  | .next s' => QueueInv u roots s' ∧ FetchInv s' ∧
      walkMeasure u params roots s' < walkMeasure u params roots s
  | .finished s' => FetchInv s'
  | .aborted s' => FetchInv s'

theorem walkTail_spec (u : WUniverse) (params : WalkParams) (roots : List WReq)
    {s t : WalkState} {node : WNode} {rest : List QItem} {qi : QItem}
    {package : WPackage} {v : Nat} {key : WKey}
    (hq : s.queue = qi :: rest)
    (hQ : QueueInv u roots s) (hF : FetchInv s)
    (hkey : key ∈ allKeys u params roots)
    (hfe : t.fetched = s.fetched)
    (hdb : ∀ k, doneB t k = doneB s k)
    (hnd : node.done = doneB s key)
    (hdeps : ∀ deps, fetch_single_deps package v = .ok deps →
      deps = [] ∨ deps ∈ depsListsOf u) :
    StepOK u params roots s (walkTail params t node rest qi package v key) := by
  have hqlen : s.queue.length = rest.length + 1 := by rw [hq]; rfl
  unfold walkTail
  by_cases hdone : node.done = true
  · rw [if_pos hdone]
    refine ⟨?_, ?_, ?_⟩
    · intro qi' hqi'
      exact hQ qi' (by rw [hq]; exact List.mem_cons_of_mem qi hqi')
    · exact fetchInv_transport hfe hdb hF
    · have hu : undoneCount u params roots { t with queue := rest } =
          undoneCount u params roots s := by
        unfold undoneCount
        congr 1
        refine List.filter_congr ?_
        intro k _
        show (!doneB { t with queue := rest } k) = !doneB s k
        exact congrArg (fun b => !b) ((doneB_congr rfl k).trans (hdb k))
      unfold walkMeasure
      rw [hu, hqlen]
      exact Nat.add_lt_add_right (Nat.lt_succ_self rest.length) _
  · rw [if_neg hdone]
    have hdf : doneB s key = false := by
      rw [← hnd]
      cases hnode : node.done
      · rfl
      · exact absurd hnode hdone
    by_cases hof : params.onlyFirst = true
    · rw [if_pos hof]
      exact fetchInv_transport hfe hdb hF
    · rw [if_neg hof]
      split
      · exact fetchInv_transport hfe hdb hF
      · rename_i deps hfd
        split
        · exact fetchInv_transport hfe hdb hF
        · rename_i gated hgd
          have hgf := gateDeps_filter hgd
          have hcase := hdeps deps hfd
          have hlen : gated.length ≤ maxDepsLen u := by
            rcases hcase with heq | hmem
            · rw [hgf, heq]
              simp
            · calc gated.length ≤ deps.length := by
                    rw [hgf]; exact List.length_filter_le _ _
                _ ≤ maxDepsLen u := le_maxDepsLen hmem
          refine ⟨?_, ?_, ?_⟩
          · intro qi' hqi'
            have hm : qi' ∈ rest ++ gated.map (fun d =>
                ({ parent := some key, name := canonicalize_name d.name,
                   req := d } : QItem)) := hqi'
            rcases List.mem_append.mp hm with h1 | h1
            · exact hQ qi' (by rw [hq]; exact List.mem_cons_of_mem qi h1)
            · rcases List.mem_map.mp h1 with ⟨d, hd, rfl⟩
              refine ⟨?_, rfl⟩
              show d ∈ allReqs u roots
              have hdd : d ∈ deps := by
                rw [hgf] at hd
                exact (List.mem_filter.mp hd).1
              show d ∈ roots ++ (depsListsOf u).flatMap id
              apply List.mem_append.mpr
              right
              rcases hcase with heq | hmem
              · rw [heq] at hdd
                exact absurd hdd (List.not_mem_nil d)
              · exact List.mem_flatMap.mpr ⟨deps, hmem, hdd⟩
          · have hkf : key ∉ s.fetched := by
              intro hkin
              have hcontra := hF.2 key hkin
              rw [hdf] at hcontra
              exact Bool.noConfusion hcontra
            constructor
            · show (t.fetched ++ [key]).Nodup
              rw [hfe, List.nodup_append]
              refine ⟨hF.1, List.nodup_singleton key, ?_⟩
              intro a ha hb
              rw [List.mem_singleton] at hb
              exact hkf (hb ▸ ha)
            · intro k hk
              have hk' : k ∈ t.fetched ++ [key] := hk
              show doneN (setA t.nodes key { node with done := true }) k = true
              by_cases hkk : k = key
              · subst hkk
                rw [doneN_setA_self]
              · rw [doneN_setA_ne _ _ _ _ hkk]
                have hkt : k ∈ t.fetched := by
                  rcases List.mem_append.mp hk' with h2 | h2
                  · exact h2
                  · exact absurd (List.mem_singleton.mp h2) hkk
                have hdone2 : doneB t k = true := by
                  rw [hdb k]
                  exact hF.2 k (by rw [← hfe]; exact hkt)
                exact hdone2
          · have hu : undoneCount u params roots
                { t with
                  queue := rest ++ gated.map (fun d =>
                    ({ parent := some key, name := canonicalize_name d.name,
                       req := d } : QItem)),
                  nodes := setA t.nodes key ({ node with done := true }),
                  fetched := t.fetched ++ [key] } <
                undoneCount u params roots s := by
              refine undoneCount_lt u params roots hkey hdf ?_ ?_
              · show doneN (setA t.nodes key { node with done := true }) key = true
                rw [doneN_setA_self]
              · intro k hkk
                show doneN (setA t.nodes key { node with done := true }) k =
                  doneB s k
                rw [doneN_setA_ne _ _ _ _ hkk, ← hdb k]
                rfl
            refine measure_step u params roots hqlen ?_ hlen hu
            show (rest ++ gated.map (fun d =>
                ({ parent := some key, name := canonicalize_name d.name,
                   req := d } : QItem))).length = rest.length + gated.length
            rw [List.length_append, List.length_map]

theorem walkAfterKey_spec (u : WUniverse) (params : WalkParams)
    (roots : List WReq) {s : WalkState} {rest : List QItem} {qi : QItem}
    {package : WPackage} {v : Nat} {key : WKey} {hasS hasB : Option Bool}
    (hq : s.queue = qi :: rest) (hQ : QueueInv u roots s) (hF : FetchInv s)
    (hkey : key ∈ allKeys u params roots)
    (hdeps : ∀ deps, fetch_single_deps package v = .ok deps →
      deps = [] ∨ deps ∈ depsListsOf u) :
    StepOK u params roots s
      (walkAfterKey params s rest qi package v key hasS hasB) := by
  rcases nodeStep_eq (chooseStep (conflictStep s key) key) key qi package v
      hasS hasB with ⟨n, hn, heq⟩ | ⟨hn, heq⟩
  · have hfe : (edgeStep (nodeStep (chooseStep (conflictStep s key) key) key
        qi package v hasS hasB).2 qi key).fetched = s.fetched := by
      rw [heq]
      exact conflictStep_fetched s key
    have hdb : ∀ k, doneB (edgeStep (nodeStep (chooseStep (conflictStep s key)
        key) key qi package v hasS hasB).2 qi key) k = doneB s k := by
      intro k
      rw [heq]
      exact doneB_congr (conflictStep_nodes s key) k
    have hn' : lookupA s.nodes key = some n := by
      rw [← conflictStep_nodes s key]
      exact hn
    have hnd : (nodeStep (chooseStep (conflictStep s key) key) key qi package v
        hasS hasB).1.done = doneB s key := by
      rw [heq]
      exact (doneN_of_lookup hn').symm
    exact walkTail_spec u params roots hq hQ hF hkey hfe hdb hnd hdeps
  · have hn' : lookupA s.nodes key = none := by
      rw [← conflictStep_nodes s key]
      exact hn
    have hfe : (edgeStep (nodeStep (chooseStep (conflictStep s key) key) key
        qi package v hasS hasB).2 qi key).fetched = s.fetched := by
      rw [heq]
      exact conflictStep_fetched s key
    have hdb : ∀ k, doneB (edgeStep (nodeStep (chooseStep (conflictStep s key)
        key) key qi package v hasS hasB).2 qi key) k = doneB s k := by
      intro k
      rw [heq]
      show doneN (setA (conflictStep s key).nodes key
          (freshNode qi package v hasS hasB)) k = doneB s k
      by_cases hkk : k = key
      · subst hkk
        rw [doneN_setA_self]
        rw [show doneB s k = false from doneN_of_lookup_none hn']
        rfl
      · rw [doneN_setA_ne _ _ _ _ hkk, conflictStep_nodes s key]
        rfl
    have hnd : (nodeStep (chooseStep (conflictStep s key) key) key qi package v
        hasS hasB).1.done = doneB s key := by
      rw [heq]
      rw [show doneB s key = false from doneN_of_lookup_none hn']
      rfl
    exact walkTail_spec u params roots hq hQ hF hkey hfe hdb hnd hdeps

theorem walkStep_spec (u : WUniverse) (params : WalkParams) (roots : List WReq)
    {s : WalkState} (hQ : QueueInv u roots s) (hF : FetchInv s) :
    StepOK u params roots s (walkStep u params s) := by
  unfold walkStep
  split
  · exact hF
  · rename_i qi rest hq
    split
    · refine ⟨?_, ?_, ?_⟩
      · intro qi' hqi'
        exact hQ qi' (by rw [hq]; exact List.mem_cons_of_mem qi hqi')
      · exact fetchInv_transport rfl (fun k => rfl) hF
      · have hu : undoneCount u params roots { s with queue := rest } =
            undoneCount u params roots s := rfl
        have hqlen : s.queue.length = rest.length + 1 := by rw [hq]; rfl
        unfold walkMeasure
        rw [hu, hqlen]
        exact Nat.add_lt_add_right (Nat.lt_succ_self rest.length) _
    · split
      · exact hF
      · rename_i package hp
        split
        · exact hF
        · rename_i v hv
          have hqi : qi ∈ s.queue := by
            rw [hq]
            exact List.mem_cons_self qi rest
          obtain ⟨hreq, hname⟩ := hQ qi hqi
          obtain ⟨p, hlp, hppkg⟩ := fetchPkg_eq hp
          have hpname : package.name = qi.name := by rw [hppkg]
          have hdeps : ∀ deps, fetch_single_deps package v = .ok deps →
              deps = [] ∨ deps ∈ depsListsOf u := by
            intro deps hd
            have hpmem : p ∈ u.pkgs.map Prod.snd :=
              List.mem_map.mpr ⟨(qi.name, p), lookupA_mem hlp, rfl⟩
            have hrel : package.releases = p.releases := by rw [hppkg]
            exact fetch_single_deps_sub hpmem hrel hd
          have hvs : v ∈ pkgVersions u (canonicalize_name qi.req.name) ++
              curVs params (canonicalize_name qi.req.name) := by
            have hn : canonicalize_name qi.req.name = qi.name := hname.symm
            rw [hn]
            rcases fcv_ok_mem hv with h1 | ⟨f, hf, hfv⟩
            · apply List.mem_append.mpr
              left
              unfold pkgVersions
              rw [hlp]
              rw [hppkg] at h1
              exact h1
            · apply List.mem_append.mpr
              right
              rw [hpname] at hfv
              simp only [curVs, hf]
              rw [hfv]
              exact List.mem_singleton.mpr rfl
          split
          · rename_i rel hr
            by_cases hcan : is_canonical package.name = true
            · rw [if_pos hcan]
              refine walkAfterKey_spec u params roots hq hQ hF ?_ hdeps
              show (package.name, v, some (insertionSort strLe qi.req.extras)) ∈
                allKeys u params roots
              unfold allKeys
              apply List.mem_dedup.mpr
              apply List.mem_flatMap.mpr
              refine ⟨qi.req, hreq, ?_⟩
              simp only [keysOfReq]
              apply List.mem_append.mpr
              left
              apply List.mem_map.mpr
              refine ⟨v, hvs, ?_⟩
              rw [show package.name = canonicalize_name qi.req.name from
                hpname.trans hname]
            · rw [if_neg hcan]
              exact hF
          · rename_i hr
            by_cases hcan : is_canonical qi.req.name = true
            · rw [if_pos hcan]
              refine walkAfterKey_spec u params roots hq hQ hF ?_ hdeps
              show ((qi.req.name, v, none) : WKey) ∈ allKeys u params roots
              unfold allKeys
              apply List.mem_dedup.mpr
              apply List.mem_flatMap.mpr
              refine ⟨qi.req, hreq, ?_⟩
              simp only [keysOfReq]
              apply List.mem_append.mpr
              right
              exact List.mem_map.mpr ⟨v, hvs, rfl⟩
            · rw [if_neg hcan]
              exact hF

/-! ### The run: termination and a duplicate-free fetch trace -/

theorem walkRun_fetchInv (u : WUniverse) (params : WalkParams)
    (roots : List WReq) : ∀ (n : Nat) (s : WalkState),
    QueueInv u roots s → FetchInv s →
    FetchInv (walkRun u params n s).state := by
  intro n
  induction n with
  | zero => intro s _ hF; exact hF
  | succ m ih =>
    intro s hQ hF
    have hstep := walkStep_spec u params roots hQ hF
    unfold walkRun
    cases hs : walkStep u params s with
    | next s' =>
      rw [hs] at hstep
      obtain ⟨h1, h2, -⟩ := hstep
      exact ih s' h1 h2
    | finished s' =>
      rw [hs] at hstep
      exact hstep
    | aborted s' =>
      rw [hs] at hstep
      exact hstep

theorem walkRun_term (u : WUniverse) (params : WalkParams) (roots : List WReq) :
    ∀ (fuel : Nat) (s : WalkState), QueueInv u roots s → FetchInv s →
    walkMeasure u params roots s < fuel →
    (walkRun u params fuel s).isTerminal = true := by
  intro fuel
  induction fuel with
  | zero => intro s _ _ hlt; exact absurd hlt (Nat.not_lt_zero _)
  | succ m ih =>
    intro s hQ hF hlt
    have hstep := walkStep_spec u params roots hQ hF
    unfold walkRun
    cases hs : walkStep u params s with
    | next s' =>
      rw [hs] at hstep
      obtain ⟨h1, h2, h3⟩ := hstep
      exact ih s' h1 h2 (by omega)
    | finished s' => rfl
    | aborted s' => rfl

theorem enqueueRoots_queueInv (u : WUniverse) (roots : List WReq) :
    QueueInv u roots (enqueueRoots roots) := by
  intro qi hqi
  have hqi' : qi ∈ roots.map (fun r =>
      ({ parent := none, name := canonicalize_name r.name, req := r } : QItem)) :=
    hqi
  rcases List.mem_map.mp hqi' with ⟨r, hr, rfl⟩
  exact ⟨List.mem_append.mpr (.inl hr), rfl⟩

theorem enqueueRoots_fetchInv (roots : List WReq) :
    FetchInv (enqueueRoots roots) :=
  ⟨List.nodup_nil, fun k hk => absurd hk (List.not_mem_nil k)⟩

/-- A two-release package for exercising version selection (versions are
Nats standing for 1.0 and 2.0). -/
def fooW : WPackage :=
  { name := "foo", releases := [(10, { files := [] }), (20, { files := [] })] }

/-- A small sdist+wheel release fixture for the checker claims. -/
def feSdistC1 : FileEntry :=
  { url := "u-s", basename := "p-1.tar.gz", checksum := "sha256=aa",
    file_type := .SDIST, version := "1" }

def feWheelC1 : FileEntry :=
  { url := "u-w", basename := "p-1-py3-none-any.whl", checksum := "sha256=bb",
    file_type := .BDIST_WHEEL, version := "1" }

def relC1 : PackageRelease :=
  { version := "1", parsed_version := "1", files := [feSdistC1, feWheelC1] }

def pkgC1 : Package := { name := "p", releases := [("1", relC1)] }

/-- The same package with a wheel-only release (no sdist). -/
def pkgC1nosdist : Package :=
  { name := "p", releases :=
      [("1", { version := "1", parsed_version := "1", files := [feWheelC1] })] }

/-- Hash oracle: the sdist holds `a.py`; the wheel holds only `b.py`, which
is missing from the sdist. -/
def ahC1 : String → Bool → List (String × String) := fun path _ =>
  if path = "u-s" then [("a.py", "h1")]
  else if path = "u-w" then [("b.py", "h2")] else []

/-- Hash oracle: the wheel's `a.py` hash differs from the sdist's, and its
`b.py` is missing from the sdist. -/
def ahC1w : String → Bool → List (String × String) := fun path _ =>
  if path = "u-s" then [("a.py", "h1")]
  else if path = "u-w" then [("a.py", "hX"), ("b.py", "h2")] else []

/-! ## Claim theorems for the release parser -/

/-- C7: `guess_file_type` maps the javatools macosx tarball to `BDIST_DUMB`
and `pypi-2.tar.gz` to `SDIST`, raises `UnexpectedFilename` on
`ibm_db.tar.gz`; and in general a basename with an sdist extension whose
suffix-stripped stem does not match the name-version regex raises
`UnexpectedFilename`. -/
theorem claim_C7 :
    guess_file_type "javatools-1.4.0.macosx-10.14-x86_64.tar.gz" =
      .ok .BDIST_DUMB ∧
    guess_file_type "pypi-2.tar.gz" = .ok .SDIST ∧
    guess_file_type "ibm_db.tar.gz" = .error (.UnexpectedFilename "ibm_db") ∧
    ∀ b : String, SDIST_EXTENSIONS.any (endsWithA b) = true →
      numericVersionMatch (remove_suffix b) = none →
      guess_file_type b = .error (.UnexpectedFilename (remove_suffix b)) := by
  refine ⟨by rfl, by rfl, by rfl, ?_⟩
  intro b h1 h2
  obtain ⟨e1, e2, e3, e4, e5, e6⟩ := sdist_not_bdist_ext h1
  unfold guess_file_type
  rw [e1, e2, e3, e4, e5, e6, h1]
  rw [if_neg (fun hc => Bool.noConfusion hc), if_neg (fun hc => Bool.noConfusion hc),
      if_neg (fun hc => Bool.noConfusion hc), if_neg (fun hc => Bool.noConfusion hc),
      if_neg (fun hc => Bool.noConfusion hc), if_neg (fun hc => Bool.noConfusion hc),
      if_pos rfl]
  simp only [h2]

/-- Witness for C7's general clause at the concrete input `ibm_db.tar.gz`. -/
theorem claim_C7_witness :
    guess_file_type "ibm_db.tar.gz" = .error (.UnexpectedFilename "ibm_db") :=
  claim_C7.2.2.2 "ibm_db.tar.gz" (by decide) (by rfl)

/-- C2 counterexample: for the four-line HTML fixture, release 0.1's files
come back in the order (BDIST_WHEEL, SDIST) — the wheel's URL sorts first —
and the file list is *not* sorted by (kind, basename), refuting the claimed
invariant and the claimed fixture order. -/
theorem claim_C2_counterexample :
    (async_parse_index_html "woah" woahTags false).map (fun p =>
        (allReleasesSorted kindBasenameLe p,
         (lookupA p.releases "0.1").map (fun rel => rel.files.map (·.file_type)))) =
      .ok (false, some [.BDIST_WHEEL, .SDIST]) := by
  rfl

/-- C2 (amended): `async_parse_index`, from either the HTML or the JSON
input shape, sorts every release's files by the full `FileEntry` dataclass
field tuple, which is led by the url (not by (kind, basename)); for the
HTML fixture, release 0.1's files appear in the order (BDIST_WHEEL, SDIST),
and the JSON shape of the same fixture yields the same order (with the
empty pre-warehouse release dropped). -/
theorem claim_C2 :
    (∀ pkg inp strict,
      match async_parse_index pkg inp strict with
      | .ok p => allReleasesSorted fileEntryLe p = true
      | .error _ => True) ∧
    (async_parse_index "woah" (.html woahTags) false).map (fun p =>
        (lookupA p.releases "0.1").map (fun rel => rel.files.map (·.file_type))) =
      .ok (some [.BDIST_WHEEL, .SDIST]) ∧
    (async_parse_index "woah" (.json woahJson) false).map (fun p =>
        ((lookupA p.releases "0.1").map (fun rel =>
           rel.files.map (·.file_type)),
         lookupA p.releases "0.0")) =
      .ok (some [.BDIST_WHEEL, .SDIST], none) := by
  refine ⟨?_, by rfl, by rfl⟩
  intro pkg inp strict
  cases inp with
  | html tags =>
    cases h : gatherEntries tags strict with
    | error e => simp [async_parse_index, async_parse_index_html, h]
    | ok entries =>
      simp only [async_parse_index, async_parse_index_html, h, bind,
        Except.bind, pure, Except.pure, allReleasesSorted, List.all_eq_true]
      intro kv hkv
      rcases List.mem_map.mp hkv with ⟨orig, _, rfl⟩
      exact pairwiseSortedB_of_pairwise
        (sorted_insertionSort (fun a b => FileEntry.cmp_law.le_total a b)
          (fun a b d hab hbd => FileEntry.cmp_law.le_trans hab hbd) _)
  | json obj =>
    cases h : jsonGatherReleases obj strict with
    | error e => simp [async_parse_index, async_parse_index_json, h]
    | ok rels =>
      simp only [async_parse_index, async_parse_index_json, h, bind,
        Except.bind, pure, Except.pure, allReleasesSorted, List.all_eq_true]
      intro kv hkv
      rcases List.mem_map.mp hkv with ⟨orig, _, rfl⟩
      exact pairwiseSortedB_of_pairwise
        (sorted_insertionSort (fun a b => FileEntry.cmp_law.le_total a b)
          (fun a b d hab hbd => FileEntry.cmp_law.le_trans hab hbd) _)

/-- C1 counterexample: a wheel file missing from the sdist sets bit 4, not 2,
and a release with no sdist returns 1, not 8. -/
theorem claim_C1_counterexample :
    run_checker pkgC1 "1" ahC1 = .ok 4 ∧
    run_checker pkgC1nosdist "1" ahC1 = .ok 1 ∧
    (4 : Nat) ≠ 2 ∧ (1 : Nat) ≠ 8 :=
  ⟨by rfl, by rfl, by decide, by decide⟩

/-- C1 (amended): run_checker returns 1 when the release has no sdist, 0 when
all its files are sdists, and otherwise a bitmask in which 4 means a file of
a binary distribution is missing from the sdist and 8 means a file's
normalised hash mismatches the sdist's. -/
theorem claim_C1 :
    ∀ (package : Package) (version : String)
      (ah : String → Bool → List (String × String)) (rel : PackageRelease),
    lookupA package.releases version = some rel →
    ((rel.files.filter (fun f => f.file_type == FileType.SDIST)).length = 0 →
       run_checker package version ah = .ok 1) ∧
    ((rel.files.filter (fun f => f.file_type == FileType.SDIST)).length =
        rel.files.length →
     (rel.files.filter (fun f => f.file_type == FileType.SDIST)).length ≠ 0 →
       run_checker package version ah = .ok 0) ∧
    ((rel.files.filter (fun f => f.file_type == FileType.SDIST)).length ≠ 0 →
     (rel.files.filter (fun f => f.file_type == FileType.SDIST)).length ≠
        rel.files.length →
       run_checker package version ah =
         .ok (rcFlags (hasMissing rel.files ah) (hasDiff rel.files ah))) := by
  intro package version ah rel h
  refine ⟨?_, ?_, ?_⟩
  · intro h0
    simp only [run_checker, h, if_pos h0]
  · intro hall h0
    simp only [run_checker, h, if_neg h0, if_pos hall]
  · intro h0 hne
    simp only [run_checker, h, if_neg h0, if_neg hne, bdistLoop_zero,
      hasMissing, hasDiff]

/-- Witness for C1 at a mixed release where the wheel both misses a file and
mismatches a hash: the result is 4 ||| 8 = 12. -/
theorem claim_C1_witness : run_checker pkgC1 "1" ahC1w = .ok 12 :=
  ((claim_C1 pkgC1 "1" ahC1w relC1 rfl).2.2 (by decide) (by decide)).trans
    (by rfl)

theorem contains_append_colon (e m : List Char) :
    (e ++ ':' :: m).contains ':' = true := by
  induction e with
  | nil => simp
  | cons a e ih => simp [ih]

theorem takeWhile_append_colon (e m : List Char) (he : e.contains ':' = false) :
    (e ++ ':' :: m).takeWhile (fun c => c != ':') = e := by
  induction e with
  | nil => simp
  | cons a e ih =>
    simp only [List.contains_cons, Bool.or_eq_false_iff] at he
    simp only [List.cons_append, List.takeWhile_cons]
    have ha : (a != ':') = true := by
      by_cases hq : a = ':'
      · subst hq
        exact absurd he.1 (by decide)
      · exact bne_iff_ne.mpr hq
    rw [if_pos ha, ih he.2]

theorem drop_append_colon (e m : List Char) :
    (e ++ ':' :: m).drop (e.length + 1) = m := by
  rw [show e ++ ':' :: m = (e ++ [':']) ++ m from by simp,
      show e.length + 1 = (e ++ [':']).length from by simp, List.drop_left]

/-- C8 counterexample: the empty section header `[]` does not clear the
marker context — it sets it to the (truthy) marker `extra == ''`, which is
then appended to following lines. -/
theorem claim_C8_counterexample :
    convert_sdist_requires "[]\na\n" =
      ["a; extra == " ++ String.singleton sqChar ++ String.singleton sqChar] ∧
    convert_sdist_requires "[]\na\n" ≠ ["a"] :=
  ⟨by rfl, by decide⟩

/-- C8 (amended): a section header sets the marker context for the lines
after it; `[extra_name]` becomes `extra == 'extra_name'` (in particular `[]`
becomes `extra == ''` rather than clearing the context), `[:marker_expr]`
applies `marker_expr` verbatim, `[extra:marker_expr]` becomes
`(marker_expr) and extra == 'extra'`, and each non-empty non-header line is
emitted as `line; markers` (or bare when the context is unset or empty). -/
theorem claim_C8 :
    (∀ h l₀ l₁ l₂ : List Char,
      isPlainL l₀ = true → isPlainL l₁ = true → isPlainL l₂ = true →
      (headerCtxL h).isEmpty = false →
      convertLines [l₀, '[' :: (h ++ [']']), l₁, l₂] =
        [trimL l₀, trimL l₁ ++ "; ".data ++ headerCtxL h,
         trimL l₂ ++ "; ".data ++ headerCtxL h]) ∧
    (∀ m : List Char, headerCtxL (':' :: m) = m) ∧
    (∀ e : List Char, e.contains ':' = false →
      headerCtxL e = "extra == ".data ++ pyReprL e) ∧
    (∀ e m : List Char, e.contains ':' = false → e.isEmpty = false →
      headerCtxL (e ++ ':' :: m) =
        ('(' :: (m ++ [')'])) ++ " and extra == ".data ++ pyReprL e) ∧
    headerCtxL [] = "extra == ".data ++ pyReprL [] := by
  refine ⟨?_, ?_, ?_, ?_, by rfl⟩
  · intro h l₀ l₁ l₂ p0 p1 p2 hcm
    unfold convertLines
    rw [List.foldl_cons, convStep_plain_none p0 rfl]
    rw [List.foldl_cons, convStep_header]
    rw [List.foldl_cons, convStep_plain_some p1 rfl hcm]
    rw [List.foldl_cons, convStep_plain_some p2 rfl hcm]
    simp
  · intro m
    unfold headerCtxL
    rw [if_pos (by simp)]
    have ht : (':' :: m).takeWhile (fun c => c != ':') = [] := by
      rw [List.takeWhile_cons, if_neg (by decide)]
    simp only [ht, List.isEmpty_nil, if_true, List.length_nil, Nat.zero_add,
      List.drop_succ_cons, List.drop_zero]
  · intro e he
    unfold headerCtxL
    rw [if_neg (fun hc => Bool.noConfusion (he ▸ hc))]
  · intro e m he hne
    unfold headerCtxL
    rw [if_pos (contains_append_colon e m)]
    simp only [takeWhile_append_colon e m he, hne, Bool.false_eq_true, if_false,
      drop_append_colon]

/-- Witness for C8's emission clause on a concrete requires.txt section. -/
theorem claim_C8_witness :
    convertLines ["a".data, '[' :: ("dev".data ++ [']']), "b".data, "c".data] =
      ["a".data, "b".data ++ "; ".data ++ headerCtxL "dev".data,
       "c".data ++ "; ".data ++ headerCtxL "dev".data] :=
  claim_C8.1 "dev".data "a".data "b".data "c".data
    (by decide) (by decide) (by decide) (by decide)

theorem fetch_common_cached (cachePath indexUrl : String) (fs : CacheFS)
    (pkg : String) (url filename : Option String)
    (hpkg : (pkg.data.contains '&' || pkg.data.contains '#') = false)
    (hidx : is_index_filename (resolvedFilename indexUrl pkg url filename) = false)
    (hex : (lookupA fs.files (outputFile cachePath pkg
        (resolvedFilename indexUrl pkg url filename))).isSome = true) :
    fetch_common cachePath indexUrl fs pkg url filename =
      .ok { url := resolvedUrl indexUrl pkg url,
            localPath :=
              outputFile cachePath pkg (resolvedFilename indexUrl pkg url filename),
            headers := none, needsRecheck := false } := by
  simp only [fetch_common, hpkg, hex, hidx]
  rw [if_neg (fun hc => Bool.noConfusion hc), if_pos (by decide)]

/-- C9: a fetch whose resolved target filename is not an index filename and
whose cached file already exists performs no HTTP request, leaves the
filesystem (bytes and header sidecars) unchanged, and returns the existing
file's path. -/
theorem claim_C9 :
    ∀ (cachePath indexUrl : String)
      (http : String → Option (String × String) → HttpResp) (fs : CacheFS)
      (pkg : String) (url filename : Option String),
    (pkg.data.contains '&' || pkg.data.contains '#') = false →
    is_index_filename (resolvedFilename indexUrl pkg url filename) = false →
    (lookupA fs.files (outputFile cachePath pkg
        (resolvedFilename indexUrl pkg url filename))).isSome = true →
    fetch cachePath indexUrl http fs pkg url filename =
      .ok (outputFile cachePath pkg (resolvedFilename indexUrl pkg url filename),
           fs, []) := by
  intro cachePath indexUrl http fs pkg url filename hpkg hidx hex
  unfold fetch
  rw [fetch_common_cached cachePath indexUrl fs pkg url filename hpkg hidx hex]
  rfl

/-- The cached filesystem and (never-consulted) HTTP oracle for the C9
witness. -/
def fsC9 : CacheFS :=
  { files := [("/c/wo/ah/woah/woah-0.1.tar.gz", "bytes")], hdrs := [] }

def httpC9 : String → Option (String × String) → HttpResp :=
  fun _ _ => { status := 200, body := "fresh" }

/-- Witness for C9: fetching an already-cached artifact returns its path with
no HTTP call and no filesystem change. -/
theorem claim_C9_witness :
    fetch "/c" "https://pypi.org/simple/" httpC9 fsC9 "woah"
        (some "https://files.pythonhosted.org/packages/8f/3f/x/woah-0.1.tar.gz")
        none =
      .ok ("/c/wo/ah/woah/woah-0.1.tar.gz", fsC9, []) :=
  claim_C9 "/c" "https://pypi.org/simple/" httpC9 fsC9 "woah"
    (some "https://files.pythonhosted.org/packages/8f/3f/x/woah-0.1.tar.gz")
    none (by decide) (by decide) (by decide)

/-- C4: `_find_compatible_version` ranks each candidate by the tuple
(equals the already-chosen version, equals the currently-installed version,
original index in the ascending-ordered candidate list) and returns the
maximum, preferring in order the already-chosen version, the installed
version, and otherwise the most recent admissible release (the last
candidate). -/
theorem claim_C4 :
    ∀ (package : WPackage) (specifiers : Nat → Bool) (pythonVersion : Nat)
      (trimNewer : Option Nat) (alreadyChosen : List (String × Nat))
      (cvc : Option (String → Option Nat)) (cur_v : Option Nat)
      (cands : List Nat),
    (fcPossible package pythonVersion trimNewer).isEmpty = false →
    cur_v = (match cvc with | none => none | some f => f package.name) →
    cands = fcCandidates package specifiers pythonVersion trimNewer cur_v →
    cands ≠ [] →
    ∃ v, find_compatible_version package specifiers pythonVersion trimNewer
           alreadyChosen cvc = .ok v ∧ v ∈ cands ∧
      (∀ a, lookupA alreadyChosen package.name = some a → a ∈ cands → v = a) ∧
      ((∀ a, lookupA alreadyChosen package.name = some a → a ∉ cands) →
        ∀ c, cur_v = some c → c ∈ cands → v = c) ∧
      ((∀ a, lookupA alreadyChosen package.name = some a → a ∉ cands) →
        (∀ c, cur_v = some c → c ∉ cands) → v = cands.getLastD 0) := by
  intro package specifiers pythonVersion trimNewer alreadyChosen cvc cur_v
    cands hposs hcur hcands hne
  subst hcur
  have hCe : cands.isEmpty = false := by
    cases h : cands.isEmpty
    · rfl
    · exact absurd (List.isEmpty_iff.mp h) hne
  have rank_tot : ∀ a b, rankLe a b || rankLe b a :=
    fun a b => rankCmp_law.le_total a b
  have rank_tr : ∀ a b d, rankLe a b → rankLe b d → rankLe a d :=
    fun a b d hab hbd => rankCmp_law.le_trans hab hbd
  simp only [find_compatible_version, hposs, ← hcands, hCe, Bool.false_eq_true,
    if_false]
  set ac := lookupA alreadyChosen package.name with hac
  set cv := (match cvc with | none => none | some f => f package.name) with hcv
  set tl := cands.enum.map (fun ip => rankTuple ac cv ip.1 ip.2) with htl_def
  have htl_ne : tl ≠ [] := by
    intro h0
    apply hne
    have hlen := congrArg List.length h0
    simp only [htl_def, List.length_map, List.enum_length, List.length_nil] at hlen
    exact List.length_eq_zero.mp hlen
  obtain ⟨hm_mem, hmax⟩ := sortLast_spec rank_tot rank_tr htl_ne
    ((false, false, 0, 0) : RankT)
  set m := (insertionSort rankLe tl).getLastD (false, false, 0, 0) with hm_def
  obtain ⟨im, hget_m, hm_eq⟩ := mem_enum_map_rank hm_mem
  refine ⟨m.2.2.2, rfl, List.get?_mem hget_m, ?_, ?_, ?_⟩
  · intro a ha hamem
    obtain ⟨ia, hga⟩ := List.mem_iff_get?.mp hamem
    have hta := hmax _ (@tuple_mem_enum_map _ ac cv _ _ hga)
    have hfst : (rankTuple ac cv ia a).1 = true := by
      simp only [rankTuple, ha, beq_self_eq_true]
    have hm1 := rankLe_fst hta hfst
    rw [hm_eq] at hm1
    simp only [rankTuple] at hm1
    have : ac = some m.2.2.2 := eq_of_beq hm1
    rw [ha] at this
    exact (Option.some.inj this).symm
  · intro hno c hc hcmem
    have hmfst : m.1 = false := by
      cases h1 : m.1
      · rfl
      · exfalso
        rw [hm_eq] at h1
        simp only [rankTuple] at h1
        exact hno _ (eq_of_beq h1) (List.get?_mem hget_m)
    obtain ⟨ic, hgc⟩ := List.mem_iff_get?.mp hcmem
    have htc := hmax _ (@tuple_mem_enum_map _ ac cv _ _ hgc)
    have htcfst : (rankTuple ac cv ic c).1 = false := by
      cases h1 : (rankTuple ac cv ic c).1
      · rfl
      · exfalso
        simp only [rankTuple] at h1
        exact hno _ (eq_of_beq h1) hcmem
    have htcsnd : (rankTuple ac cv ic c).2.1 = true := by
      simp only [rankTuple, hc, beq_self_eq_true]
    have hm2 := rankLe_snd htc htcfst hmfst htcsnd
    rw [hm_eq] at hm2
    simp only [rankTuple] at hm2
    have : cv = some m.2.2.2 := eq_of_beq hm2
    rw [hc] at this
    exact (Option.some.inj this).symm
  · intro hno hnoc
    have hmfst : m.1 = false := by
      cases h1 : m.1
      · rfl
      · exfalso
        rw [hm_eq] at h1
        simp only [rankTuple] at h1
        exact hno _ (eq_of_beq h1) (List.get?_mem hget_m)
    have hmsnd : m.2.1 = false := by
      cases h1 : m.2.1
      · rfl
      · exfalso
        rw [hm_eq] at h1
        simp only [rankTuple] at h1
        exact hnoc _ (eq_of_beq h1) (List.get?_mem hget_m)
    have hlastget : cands.get? (cands.length - 1) = some (cands.getLastD 0) := by
      rw [List.get?_eq_getElem?, ← List.getLast?_eq_getElem?,
        List.getLastD_eq_getLast?, List.getLast?_eq_getLast cands hne]
      simp
    have hlmem : cands.getLastD 0 ∈ cands := getLastD_mem hne 0
    have htlast := hmax _ (@tuple_mem_enum_map _ ac cv _ _ hlastget)
    have h1 : (rankTuple ac cv (cands.length - 1) (cands.getLastD 0)).1 = m.1 := by
      rw [hmfst]
      cases h1 : (rankTuple ac cv (cands.length - 1) (cands.getLastD 0)).1
      · rfl
      · exfalso
        simp only [rankTuple] at h1
        exact hno _ (eq_of_beq h1) hlmem
    have h2 : (rankTuple ac cv (cands.length - 1) (cands.getLastD 0)).2.1 = m.2.1 := by
      rw [hmsnd]
      cases h2 : (rankTuple ac cv (cands.length - 1) (cands.getLastD 0)).2.1
      · rfl
      · exfalso
        simp only [rankTuple] at h2
        exact hnoc _ (eq_of_beq h2) hlmem
    have hidx := rankLe_idx htlast h1 h2
    simp only [rankTuple] at hidx
    rw [hm_eq] at hidx
    have him : im < cands.length := by
      rcases List.get?_eq_some.mp hget_m with ⟨hlt, _⟩
      exact hlt
    have : im = cands.length - 1 := by
      simp only [rankTuple] at hidx
      omega
    rw [this, hlastget] at hget_m
    exact (Option.some.inj hget_m).symm

/-- Witness for C4 at a two-release package with no constraints, no
already-chosen version and no installed version: the most recent release is
picked. -/
theorem claim_C4_witness :
    find_compatible_version fooW (fun _ => true) 3 none [] none = .ok 20 := by
  obtain ⟨v, hfind, _, _, _, hlast⟩ :=
    claim_C4 fooW (fun _ => true) 3 none [] none none
      (fcCandidates fooW (fun _ => true) 3 none none)
      (by decide) rfl rfl (by decide)
  have hv : v = 20 := by
    have h := hlast (fun a ha => Option.noConfusion ha)
      (fun c hc => Option.noConfusion hc)
    rw [h]
    rfl
  rw [← hv]
  exact hfind

/-- C3: evaluating `Cache.__init__`'s URL handling at a failing input.  A
cache constructed with an explicit `json_index_url` (or with
`HONESTY_JSON_INDEX_URL` set) stores the *simple* index URL as
`json_index_url`: the supplied JSON URL is read and discarded. -/
theorem claim_C3 :
    (cacheInitUrls (some "https://example.com/simple/")
        (some "https://json.example.com/") none none
        "https://pypi.org/simple/").2 = "https://example.com/simple/" ∧
    (cacheInitUrls (some "https://example.com/simple/")
        (some "https://json.example.com/") none none
        "https://pypi.org/simple/").2 ≠ "https://json.example.com/" ∧
    (cacheInitUrls none none none (some "https://json.example.com/")
        "https://pypi.org/simple/").2 = "https://pypi.org/simple/" :=
  ⟨by rfl, by decide, by rfl⟩

/-- The enqueue gate as the spec's sentence reads: a dependency whose marker
names an extra is enqueued when that extra is in the requirement's extras,
OR when the caller asked for all extras.  (Spec-side definition, to be
compared with `gatePass` from the code.) -/
def specGatePass (includeExtras : Bool) (reqExtras : List String)
    (d : WReq) : Bool :=
  match extractExtraStr (markerClausesOf d) with
  | .ok none => true
  | .ok (some e) => reqExtras.contains e || includeExtras
  | .error _ => false

/-- A dependency whose marker says `extra == "foo"`. -/
def dC5 : WReq :=
  { name := "b", extras := [], specStr := "", specifier := fun _ => true,
    marker := some { clauses := [{ var := "extra", op := "==", value := "foo" }],
                     value := true } }

/-- Counterexample to C5: with `include_extras=False` and a requirement whose
extras set contains "foo", the claim's gate would enqueue a dependency marked
`extra == "foo"` (its extra is in the extras set), but the walk loop's gate
`extra_str is None or (include_extras and extra_str in req.extras)` drops it:
membership alone does not suffice without include_extras. -/
theorem claim_C5_counterexample :
    specGatePass false ["foo"] dC5 = true ∧
    gatePass false ["foo"] dC5 = false ∧
    gateDeps false ["foo"] [dC5] = .ok [] :=
  ⟨rfl, rfl, by rfl⟩

/-- C5 (amended): the walk loop keeps a discovered dependency exactly when
the gate passes; a dependency without an `extra` marker always passes, and
one marked `extra == e` passes exactly when the caller asked for all extras
AND e is in the current requirement's extras set (a conjunction, not the
claimed disjunction). -/
theorem claim_C5 (ie : Bool) (ex : List String) (deps gated : List WReq)
    (h : gateDeps ie ex deps = .ok gated) :
    gated = deps.filter (gatePass ie ex) ∧
    ∀ d ∈ deps,
      (extractExtraStr (markerClausesOf d) = .ok none →
        gatePass ie ex d = true) ∧
      ∀ e, extractExtraStr (markerClausesOf d) = .ok (some e) →
        (gatePass ie ex d = true ↔ ie = true ∧ ex.contains e = true) := by
  refine ⟨gateDeps_filter h, ?_⟩
  intro d _
  constructor
  · intro hx
    unfold gatePass
    rw [hx]
  · intro e hx
    unfold gatePass
    rw [hx]
    show (ie && ex.contains e) = true ↔ ie = true ∧ ex.contains e = true
    rw [Bool.and_eq_true]

/-- Witness for C5: the gate run on the counterexample dependency agrees
with the filter characterisation. -/
theorem claim_C5_witness :
    ([] : List WReq) = [dC5].filter (gatePass false ["foo"]) :=
  (claim_C5 false ["foo"] [dC5] [] (by rfl)).1

/-- C6: over every finite universe of packages the walk loop terminates —
enough fuel reaches a finished or aborted state, cyclic requirement graphs
included, because every continuing iteration either shortens the queue or
marks an undone key done — and on every input the trace of keys whose
transitive requirements were fetched and enqueued is duplicate-free: the
done flag admits each node's fetch at most once. -/
theorem claim_C6 (u : WUniverse) (params : WalkParams) (roots : List WReq) :
    (∃ n, (walkRun u params n (enqueueRoots roots)).isTerminal = true) ∧
    ∀ n, ((walkRun u params n (enqueueRoots roots)).state).fetched.Nodup := by
  constructor
  · exact ⟨walkMeasure u params roots (enqueueRoots roots) + 1,
      walkRun_term u params roots _ _ (enqueueRoots_queueInv u roots)
        (enqueueRoots_fetchInv roots) (Nat.lt_succ_self _)⟩
  · intro n
    exact (walkRun_fetchInv u params roots n _ (enqueueRoots_queueInv u roots)
      (enqueueRoots_fetchInv roots)).1

/-- Running the tail of an iteration on a not-yet-done node when the
dependency fetch returns the empty list: the node is marked done, the key is
recorded fetched, and nothing is enqueued. -/
theorem walkTail_fresh_run {params : WalkParams} {t : WalkState} {node : WNode}
    {rest : List QItem} {qi : QItem} {package : WPackage} {v : Nat} {key : WKey}
    (hnd : node.done = false) (hof : params.onlyFirst = false)
    (hfs : fetch_single_deps package v = .ok []) :
    walkTail params t node rest qi package v key =
      .next { t with
        queue := rest ++ [],
        nodes := setA t.nodes key ({ node with done := true }),
        fetched := t.fetched ++ [key] } := by
  unfold walkTail
  rw [hnd, hof, hfs]
  rfl

/-- C10: when the chosen version is not among the package's releases (it can
only have come from the installed-version callback), the walker still
creates a node keyed `(requirement name, version, None)` whose has_sdist and
has_bdist are None, `_fetch_single_deps` returns the empty list for it, and
nothing new is enqueued: the transitive dependencies of a non-public
installed version are never discovered. -/
theorem claim_C10 (u : WUniverse) (params : WalkParams) (s : WalkState)
    (qi : QItem) (rest : List QItem) (package : WPackage) (v : Nat)
    (hq : s.queue = qi :: rest)
    (hmk : qi.req.marker = none)
    (hp : fetchPkg u qi.name = some package)
    (hv : find_compatible_version package qi.req.specifier params.pythonVersion
      params.trimNewer s.alreadyChosen params.cvc = .ok v)
    (hr : lookupA package.releases v = none)
    (hcan : is_canonical qi.req.name = true)
    (hnode : lookupA s.nodes (qi.req.name, v, none) = none)
    (hof : params.onlyFirst = false) :
    fetch_single_deps package v = .ok [] ∧
    ∃ s', walkStep u params s = .next s' ∧ s'.queue = rest ∧
      lookupA s'.nodes (qi.req.name, v, none) =
        some { name := package.name, version := v, hasSdist := none,
               hasBdist := none, depExtras := some qi.req.extras,
               done := true } ∧
      s'.fetched = s.fetched ++ [(qi.req.name, v, none)] := by
  have hfsd : fetch_single_deps package v = .ok [] := by
    unfold fetch_single_deps
    rw [hr]
  refine ⟨hfsd, ?_⟩
  have hstep : walkStep u params s = walkAfterKey params s rest qi package v
      (qi.req.name, v, none) none none := by
    simp only [walkStep, hq, hmk, hp, hv, hr, hcan, Bool.false_eq_true,
      if_false, if_true]
  have hn2 : lookupA (chooseStep (conflictStep s (qi.req.name, v, none))
      (qi.req.name, v, none)).nodes (qi.req.name, v, none) = none := by
    rw [chooseStep_nodes, conflictStep_nodes]
    exact hnode
  rcases nodeStep_eq (chooseStep (conflictStep s (qi.req.name, v, none))
      (qi.req.name, v, none)) (qi.req.name, v, none) qi package v none none
    with ⟨n, hn, -⟩ | ⟨-, heq⟩
  · rw [hn2] at hn
    exact Option.noConfusion hn
  · have hwa : walkStep u params s = walkTail params
        (edgeStep { chooseStep (conflictStep s (qi.req.name, v, none))
              (qi.req.name, v, none) with
            nodes := setA (chooseStep (conflictStep s (qi.req.name, v, none))
              (qi.req.name, v, none)).nodes (qi.req.name, v, none)
              (freshNode qi package v none none) } qi (qi.req.name, v, none))
        (freshNode qi package v none none) rest qi package v
        (qi.req.name, v, none) := by
      rw [hstep]
      show walkTail params
          (edgeStep (nodeStep (chooseStep (conflictStep s (qi.req.name, v, none))
            (qi.req.name, v, none)) (qi.req.name, v, none) qi package v
            none none).2 qi (qi.req.name, v, none))
          (nodeStep (chooseStep (conflictStep s (qi.req.name, v, none))
            (qi.req.name, v, none)) (qi.req.name, v, none) qi package v
            none none).1 rest qi package v (qi.req.name, v, none) = _
      rw [heq]
    rw [walkTail_fresh_run rfl hof hfsd] at hwa
    refine ⟨_, hwa, List.append_nil rest, ?_, ?_⟩
    · exact lookupA_setA_self
        (edgeStep { chooseStep (conflictStep s (qi.req.name, v, none))
            (qi.req.name, v, none) with
          nodes := setA (chooseStep (conflictStep s (qi.req.name, v, none))
            (qi.req.name, v, none)).nodes (qi.req.name, v, none)
            (freshNode qi package v none none) } qi (qi.req.name, v, none)).nodes
        (qi.req.name, v, none)
        ({ freshNode qi package v none none with done := true })
    · exact congrArg (fun l => l ++ [(qi.req.name, v, none)])
        (conflictStep_fetched s (qi.req.name, v, none))

/-- A one-release package whose installed version (from the callback) is not
a public release. -/
def relC10 : WRelease := { files := [] }

def pkgC10 : WPackage := { name := "pkga", releases := [(10, relC10)] }

def uC10 : WUniverse := { pkgs := [("pkga", pkgC10)] }

def paramsC10 : WalkParams :=
  { pythonVersion := 0, trimNewer := none, includeExtras := false,
    onlyFirst := false, cvc := some (fun _ => some 99) }

def reqC10 : WReq :=
  { name := "pkga", extras := [], specStr := "==99",
    specifier := fun w => w == 99, marker := none }

def qiC10 : QItem := { parent := none, name := "pkga", req := reqC10 }

def sC10 : WalkState := enqueueRoots [reqC10]

/-- Witness for C10: the callback picks version 99, which is not a release of
pkga; the walker makes a `("pkga", 99, None)` node with has_sdist and
has_bdist None, fetches no dependencies and enqueues nothing. -/
theorem claim_C10_witness :
    fetch_single_deps pkgC10 99 = .ok [] ∧
    ∃ s', walkStep uC10 paramsC10 sC10 = .next s' ∧ s'.queue = [] ∧
      lookupA s'.nodes ("pkga", 99, none) =
        some { name := "pkga", version := 99, hasSdist := none,
               hasBdist := none, depExtras := some [], done := true } ∧
      s'.fetched = [] ++ [("pkga", 99, none)] :=
  claim_C10 uC10 paramsC10 sC10 qiC10 [] pkgC10 99 (by rfl) rfl (by rfl)
    (by rfl) (by rfl) (by rfl) rfl rfl

end Honesty
